import Mathlib

set_option maxRecDepth 200000

/-!
Verification development for a row-sliced, multi-threaded Game of Life engine
(`life.c`).  The engine keeps, for every cell, an encoded value packing an
alive flag together with an incrementally maintained live-neighbor count.

Boards are modelled as total functions from `Int × Int` (C array indices) to
cell values; in-place C mutation becomes functional update.  The concurrent
worker execution is serialized slice by slice: all per-generation writes of the
workers read only the stable `inboard` and their per-cell effects (one alive
flag write per cell, commuting count increments and decrements under the
boundary locks) are order-independent, so a serialization computes the same
final buffers as any interleaving of the worker threads.  The compile-time
thread count `NUM_THREADS` (from the missing header) is modelled as an
explicit parameter `t`.
-/

/-- Modelled from the spec: the encoded cell representation of `life.h`
(missing from the sources) packs an alive flag and a live-neighbor count into
one value per cell; here the two fields are kept as a structure. -/
structure Cell where
  alive : Bool
  count : Int
deriving DecidableEq

/-- A grid position, row then column, as C `int` indices. -/
abbrev Pos := Int × Int

/-- An encoded board buffer (`char *` holding encoded cells). -/
abbrev EBoard := Pos → Cell

/-- A plain board buffer (`char *` holding 0/1 cells). -/
abbrev PBoard := Pos → Nat

/-- Modelled from the spec: the `mod` helper of `util.h` (missing from the
sources), toroidal index arithmetic modulo the board dimension; mathematical
modulo, nonnegative for a positive modulus. -/
def mod (x n : Int) : Int := x % n

/-- Modelled from the spec: the `ALIVE` macro, reads the alive flag. -/
def ALIVE (c : Cell) : Bool := c.alive

/-- Modelled from the spec: `must_die` test, used only on alive cells; true
iff the neighbor count is neither 2 nor 3. -/
def TOKILL (c : Cell) : Bool := !(c.count == 2 || c.count == 3)

/-- Modelled from the spec: `must_spawn` test, used only on dead cells; true
iff the neighbor count is exactly 3. -/
def TOSPAWN (c : Cell) : Bool := c.count == 3

/-- Modelled from the spec: `KILL` clears the alive flag, leaving the
neighbor-count field untouched. -/
def KILL (c : Cell) : Cell := { alive := false, count := c.count }

/-- Modelled from the spec: `SPAWN` sets the alive flag, leaving the
neighbor-count field untouched. -/
def SPAWN (c : Cell) : Cell := { alive := true, count := c.count }

/-- Pointwise update of a board buffer (a C store `board[i][j] = c`). -/
def updB (bd : EBoard) (p : Pos) (c : Cell) : EBoard :=
  fun q => if q = p then c else bd q

/-- Modelled from the spec: the `N_INC` macro, increments the neighbor-count
field of the cell at `p`, leaving its alive flag untouched. -/
def N_INC (bd : EBoard) (p : Pos) : EBoard :=
  let c : Cell := { alive := (bd p).alive, count := (bd p).count + 1 }
  updB bd p c

/-- Modelled from the spec: the `N_DEC` macro, decrements the neighbor-count
field of the cell at `p`, leaving its alive flag untouched. -/
def N_DEC (bd : EBoard) (p : Pos) : EBoard :=
  let c : Cell := { alive := (bd p).alive, count := (bd p).count - 1 }
  updB bd p c

/-- Modelled from the spec: the first pass of `preprocessing_board` on one
cell: a plain value 1 becomes an encoded alive cell with count 0 (`SPAWN` on a
cleared cell), everything else a dead cell with count 0. -/
def encodeCell (v : Nat) : Cell :=
  if v = 1 then SPAWN { alive := false, count := 0 } else { alive := false, count := 0 }

/-- The list of integers `[a, a+1, ..., b-1]` (a C `for` loop from `a` while
`< b`), empty when `b ≤ a`. -/
def intRange (a b : Int) : List Int :=
  (List.range (b - a).toNat).map (fun (k : Nat) => a + (k : Int))

/-- Row-major enumeration of the `n × n` grid (the C double loop over rows
then columns). -/
def gridList (n : Int) : List Pos :=
  (intRange 0 n).flatMap (fun i => (intRange 0 n).map (fun j => (i, j)))

/-- The position lies inside the `n × n` buffer. -/
def inRange (n : Int) (p : Pos) : Prop :=
  0 ≤ p.1 ∧ p.1 < n ∧ 0 ≤ p.2 ∧ p.2 < n

instance (n : Int) (p : Pos) : Decidable (inRange n p) := by
  unfold inRange; infer_instance

/-- The eight positions whose counts `do_cell` touches for cell `(i, j)`, in
the order of the source: the north row, then west and east, then the south
row.  As in the source the middle-row entries use the raw `i` and raw `j`
without wrapping. -/
def nbrList (n : Int) (p : Pos) : List Pos :=
  let jwest := mod (p.2 - 1) n
  let jeast := mod (p.2 + 1) n
  let inorth := mod (p.1 - 1) n
  let isouth := mod (p.1 + 1) n
  [(inorth, jwest), (inorth, p.2), (inorth, jeast),
   (p.1, jwest), (p.1, jeast),
   (isouth, jwest), (isouth, p.2), (isouth, jeast)]

/-- The eight Moore-neighborhood offsets, in source order. -/
def offsets : List Pos :=
  [(-1, -1), (-1, 0), (-1, 1), (0, -1), (0, 1), (1, -1), (1, 0), (1, 1)]

/-- The eight toroidal neighbors of `p`, all coordinates wrapped. -/
def nbrListW (n : Int) (p : Pos) : List Pos :=
  offsets.map (fun d => (mod (p.1 + d.1) n, mod (p.2 + d.2) n))

/-- `do_cell` of the source: read the cell from `inboard`; if it is alive and
must die, clear its flag in `outboard` and decrement the counts of its eight
neighbors there; if it is dead and must spawn, set its flag and increment the
eight neighbor counts; otherwise leave `outboard` unchanged. -/
def do_cell (outboard inboard : EBoard) (i j size : Int) : EBoard :=
  let cell := inboard (i, j)
  if ALIVE cell then
    if TOKILL cell then
      let jwest := mod (j - 1) size
      let jeast := mod (j + 1) size
      let inorth := mod (i - 1) size
      let isouth := mod (i + 1) size
      let c0 := KILL (outboard (i, j))
      let o0 := updB outboard (i, j) c0
      let o1 := N_DEC o0 (inorth, jwest)
      let o2 := N_DEC o1 (inorth, j)
      let o3 := N_DEC o2 (inorth, jeast)
      let o4 := N_DEC o3 (i, jwest)
      let o5 := N_DEC o4 (i, jeast)
      let o6 := N_DEC o5 (isouth, jwest)
      let o7 := N_DEC o6 (isouth, j)
      N_DEC o7 (isouth, jeast)
    else outboard
  else
    if TOSPAWN cell then
      let jwest := mod (j - 1) size
      let jeast := mod (j + 1) size
      let inorth := mod (i - 1) size
      let isouth := mod (i + 1) size
      let c0 := SPAWN (outboard (i, j))
      let o0 := updB outboard (i, j) c0
      let o1 := N_INC o0 (inorth, jwest)
      let o2 := N_INC o1 (inorth, j)
      let o3 := N_INC o2 (inorth, jeast)
      let o4 := N_INC o3 (i, jwest)
      let o5 := N_INC o4 (i, jeast)
      let o6 := N_INC o5 (isouth, jwest)
      let o7 := N_INC o6 (isouth, j)
      N_INC o7 (isouth, jeast)
    else outboard

/-- `kill_cell` of the source: clear the flag at `(i, j)` in `outboard` and
decrement the neighbor counts of its eight neighbors. -/
def kill_cell (outboard : EBoard) (i j size : Int) : EBoard :=
  let jwest := mod (j - 1) size
  let jeast := mod (j + 1) size
  let inorth := mod (i - 1) size
  let isouth := mod (i + 1) size
  let c0 := KILL (outboard (i, j))
  let o0 := updB outboard (i, j) c0
  let o1 := N_DEC o0 (inorth, jwest)
  let o2 := N_DEC o1 (inorth, j)
  let o3 := N_DEC o2 (inorth, jeast)
  let o4 := N_DEC o3 (i, jwest)
  let o5 := N_DEC o4 (i, jeast)
  let o6 := N_DEC o5 (isouth, jwest)
  let o7 := N_DEC o6 (isouth, j)
  N_DEC o7 (isouth, jeast)

/-- `spawn_cell` of the source: set the flag at `(i, j)` in `outboard` and
increment the neighbor counts of its eight neighbors. -/
def spawn_cell (outboard : EBoard) (i j size : Int) : EBoard :=
  let jwest := mod (j - 1) size
  let jeast := mod (j + 1) size
  let inorth := mod (i - 1) size
  let isouth := mod (i + 1) size
  let c0 := SPAWN (outboard (i, j))
  let o0 := updB outboard (i, j) c0
  let o1 := N_INC o0 (inorth, jwest)
  let o2 := N_INC o1 (inorth, j)
  let o3 := N_INC o2 (inorth, jeast)
  let o4 := N_INC o3 (i, jwest)
  let o5 := N_INC o4 (i, jeast)
  let o6 := N_INC o5 (isouth, jwest)
  let o7 := N_INC o6 (isouth, j)
  N_INC o7 (isouth, jeast)

/-- The inlined locked boundary update of `worker_fuction_by_rows_encoding`
(lines 110-124 and 139-153): test the current cell and call `kill_cell` or
`spawn_cell` on the next buffer.  The mutex acquisition around the call has no
functional content and is not modelled. -/
def boundary_update (outboard inboard : EBoard) (i j size : Int) : EBoard :=
  if ALIVE (inboard (i, j)) then
    if TOKILL (inboard (i, j)) then kill_cell outboard i j size else outboard
  else
    if TOSPAWN (inboard (i, j)) then spawn_cell outboard i j size else outboard

/-- The second pass of `preprocessing_board` on one cell: if the cell is alive
in the evolving buffer, increment the neighbor counts of its eight toroidal
neighbors. -/
def preprocessing_step (size : Int) (board : EBoard) (p : Pos) : EBoard :=
  if ALIVE (board p) then
    let jwest := mod (p.2 - 1) size
    let jeast := mod (p.2 + 1) size
    let inorth := mod (p.1 - 1) size
    let isouth := mod (p.1 + 1) size
    let o1 := N_INC board (inorth, jwest)
    let o2 := N_INC o1 (inorth, p.2)
    let o3 := N_INC o2 (inorth, jeast)
    let o4 := N_INC o3 (p.1, jwest)
    let o5 := N_INC o4 (p.1, jeast)
    let o6 := N_INC o5 (isouth, jwest)
    let o7 := N_INC o6 (isouth, p.2)
    N_INC o7 (isouth, jeast)
  else board

/-- `preprocessing_board` of the source: re-encode every plain cell in place
(first pass), then for every alive cell increment the neighbor counts of its
eight toroidal neighbors (second pass).  The final `memmove` duplicating the
encoded buffer into the other buffer is performed by the caller
(`parallel_game_of_life`), which starts from two copies of this result. -/
def preprocessing_board (inboard : PBoard) (size : Int) : EBoard :=
  (gridList size).foldl (preprocessing_step size) (fun p => encodeCell (inboard p))

/-- `postprocessing_board` of the source: replace every encoded cell of the
buffer by its plain 0/1 alive indicator, discarding the count field. -/
def postprocessing_board (board : EBoard) (nrows ncols : Int) : PBoard :=
  fun p => if ALIVE (board p) then 1 else 0

/-- One column pass of `worker_fuction_by_rows_encoding` for slice `s` of
size `m`: the first two rows of the slice under the upper boundary lock, the
interior rows directly through `do_cell`, the last two rows under the lower
boundary lock. -/
def worker_col_pass (outboard inboard : EBoard) (size m s j : Int) : EBoard :=
  let o1 := (intRange (s * m) (s * m + 2)).foldl
    (fun o i => boundary_update o inboard i j size) outboard
  let o2 := (intRange (s * m + 2) (s * m + m - 2)).foldl
    (fun o i => do_cell o inboard i j size) o1
  (intRange (s * m + m - 2) (s * m + m)).foldl
    (fun o i => boundary_update o inboard i j size) o2

/-- One generation of one worker: all columns of its slice. -/
def worker_generation_pass (outboard inboard : EBoard) (size ncols m s : Int) : EBoard :=
  (intRange 0 ncols).foldl (fun o j => worker_col_pass o inboard size m s j) outboard

/-- One full generation of the engine on the buffer pair `(inboard,
outboard)`: every worker walks its slice writing into the next buffer (the
concurrent workers are serialized, see the header comment), then, as in the
source after the first barrier, every worker copies its own row band of the
next buffer back into the current buffer. -/
def one_generation (t nrows ncols : Nat) (st : EBoard × EBoard) : EBoard × EBoard :=
  let m : Int := (nrows : Int) / (t : Int)
  let outb := (intRange 0 (t : Int)).foldl
    (fun o s => worker_generation_pass o st.1 nrows ncols m s) st.2
  (fun p => if 0 ≤ p.1 ∧ p.1 < (t : Int) * m then outb p else st.1 p, outb)

/-- The encoded buffer pair of `parallel_game_of_life` after `gens_max`
generations: both buffers start as the preprocessed board, then the workers
run generation by generation. -/
def engine_state (t nrows ncols gens_max : Nat) (inboard : PBoard) : EBoard × EBoard :=
  (one_generation t nrows ncols)^[gens_max]
    (preprocessing_board inboard nrows, preprocessing_board inboard nrows)

/-- `parallel_game_of_life` of the source: preprocess, run the workers for
`gens_max` generations, decode the final `outboard` with `LDA = nrows` and
return it.  `t` models the compile-time `NUM_THREADS`. -/
def parallel_game_of_life (t nrows ncols gens_max : Nat) (inboard : PBoard) : PBoard :=
  postprocessing_board (engine_state t nrows ncols gens_max inboard).2 nrows nrows

/-- The naive per-generation live-neighbor count: the full eight-neighbor sum
with toroidal wraparound, recomputed from the plain board. -/
def naive_neighbor_count (n : Int) (b : PBoard) (p : Pos) : Int :=
  ((nbrListW n p).map (fun q => if b q = 1 then (1 : Int) else 0)).sum

/-- The naive recomputation of one Game of Life generation on a plain board:
an alive cell survives with two or three live neighbors, a dead cell is born
with exactly three. -/
def naive_life_step (n : Int) (b : PBoard) : PBoard := fun p =>
  if b p = 1 then
    if naive_neighbor_count n b p = 2 ∨ naive_neighbor_count n b p = 3 then 1 else 0
  else
    if naive_neighbor_count n b p = 3 then 1 else 0

/-- The naive reference implementation: `g` plain recomputed generations. -/
def naive_game_of_life (n : Int) (g : Nat) (b : PBoard) : PBoard :=
  (naive_life_step n)^[g] b

/-- Modelled from the spec: the external sequential fallback
`sequential_game_of_life` is out of scope of the spec; it consumes the same
contract and returns a (non-null) plain board, modelled as the naive
recomputation.  Only its non-nullness matters below. -/
def sequential_game_of_life (nrows ncols gens_max : Nat) (b : PBoard) : PBoard :=
  naive_game_of_life (nrows : Int) gens_max b

/-- `game_of_life` of the source, the dispatcher: small boards go to the
sequential fallback, oversized boards yield a null result (`none`), everything
else runs the parallel engine. -/
def game_of_life (t nrows ncols gens_max : Nat) (b : PBoard) : Option PBoard :=
  if nrows < 32 then some (sequential_game_of_life nrows ncols gens_max b)
  else if 10000 < nrows ∨ 10000 < ncols then none
  else some (parallel_game_of_life t nrows ncols gens_max b)

/-- The row list one worker slice walks per column, in source order: the
two-row upper margin, the interior, the two-row lower margin. -/
def worker_slice_rows (m s : Int) : List Int :=
  intRange (s * m) (s * m + 2) ++ intRange (s * m + 2) (s * m + m - 2) ++
    intRange (s * m + m - 2) (s * m + m)

/-- All positions one generation applies the cell transition to, with
multiplicity, in serialized order: slice by slice, column by column, the
slice's row list. -/
def generation_order (t nrows ncols : Nat) : List Pos :=
  (intRange 0 (t : Int)).flatMap fun s =>
    (intRange 0 ncols).flatMap fun j =>
      (worker_slice_rows ((nrows : Int) / (t : Int)) s).map fun i => (i, j)

/-- Fold of `do_cell` over a list of positions, all reading the same
`inboard`. -/
def applyCells (outboard inboard : EBoard) (l : List Pos) (size : Int) : EBoard :=
  l.foldl (fun o p => do_cell o inboard p.1 p.2 size) outboard

/-- The cell at `p` is alive and must die (`do_cell` takes its kill branch). -/
def activeKill (c : Cell) : Bool := ALIVE c && TOKILL c

/-- The cell at `p` is dead and must spawn (`do_cell` takes its spawn
branch). -/
def activeSpawn (c : Cell) : Bool := !ALIVE c && TOSPAWN c

/-- The signed change `do_cell` makes to the alive population at one cell. -/
def cellDelta (c : Cell) : Int :=
  if activeKill c then -1 else if activeSpawn c then 1 else 0

/-- The number of alive cells among the eight toroidal neighbors of `p` in an
encoded buffer. -/
def liveNb (n : Int) (e : EBoard) (p : Pos) : Int :=
  ((nbrListW n p).map (fun q => if (e q).alive then (1 : Int) else 0)).sum

/-! ### Pointwise characterization of the cell operations -/

lemma updB_apply (bd : EBoard) (p q : Pos) (c : Cell) :
    updB bd p c q = if q = p then c else bd q := rfl

lemma activeKill_iff (c : Cell) :
    activeKill c = true ↔ c.alive = true ∧ c.count ≠ 2 ∧ c.count ≠ 3 := by
  simp [activeKill, ALIVE, TOKILL, and_assoc]

lemma activeSpawn_iff (c : Cell) :
    activeSpawn c = true ↔ c.alive = false ∧ c.count = 3 := by
  simp [activeSpawn, ALIVE, TOSPAWN]

lemma activeSpawn_of_activeKill (c : Cell) (h : activeKill c = true) :
    activeSpawn c = false := by
  rw [activeKill_iff] at h
  simp [activeSpawn, ALIVE, h.1]

/-- Integer-valued multiplicity of a position in a list of positions. -/
def hits (l : List Pos) (p : Pos) : Int :=
  (l.map (fun q => if q = p then (1 : Int) else 0)).sum

lemma hits_nil (p : Pos) : hits [] p = 0 := rfl

lemma hits_cons (x : Pos) (l : List Pos) (p : Pos) :
    hits (x :: l) p = (if x = p then 1 else 0) + hits l p := by
  simp [hits]

lemma hits_append (l₁ l₂ : List Pos) (p : Pos) :
    hits (l₁ ++ l₂) p = hits l₁ p + hits l₂ p := by
  simp [hits]

lemma hits_nonneg (l : List Pos) (p : Pos) : 0 ≤ hits l p := by
  induction l with
  | nil => simp [hits_nil]
  | cons x l ih =>
    rw [hits_cons]
    by_cases h : x = p <;> simp [h] <;> omega

lemma hits_eq_zero_iff (l : List Pos) (p : Pos) : hits l p = 0 ↔ p ∉ l := by
  induction l with
  | nil => simp [hits_nil]
  | cons x l ih =>
    rw [hits_cons]
    have hn := hits_nonneg l p
    by_cases h : x = p
    · rw [if_pos h]
      constructor
      · intro hc
        exfalso
        omega
      · intro hc
        exact absurd (List.mem_cons.mpr (Or.inl h.symm)) hc
    · rw [if_neg h, zero_add, ih]
      simp only [List.mem_cons]
      constructor
      · intro hc hm
        rcases hm with hm | hm
        · exact h hm.symm
        · exact hc hm
      · intro hc hm
        exact hc (Or.inr hm)

lemma hits_pos_of_mem {l : List Pos} {p : Pos} (h : p ∈ l) : 1 ≤ hits l p := by
  by_cases h0 : hits l p = 0
  · exact absurd h ((hits_eq_zero_iff l p).mp h0)
  · have h1 := hits_nonneg l p
    omega

lemma hits_nodup (l : List Pos) (h : l.Nodup) (p : Pos) :
    hits l p = if p ∈ l then 1 else 0 := by
  induction l with
  | nil => simp [hits_nil]
  | cons x l ih =>
    rw [hits_cons, ih (List.nodup_cons.mp h).2]
    by_cases hx : x = p
    · subst hx
      have hnm : x ∉ l := (List.nodup_cons.mp h).1
      simp [hnm]
    · have hmem : (p ∈ x :: l) ↔ p ∈ l := by
        constructor
        · intro hp
          rcases List.mem_cons.mp hp with hp | hp
          · exact absurd hp.symm hx
          · exact hp
        · exact fun hp => List.mem_cons_of_mem _ hp
      rw [if_neg hx, zero_add]
      by_cases hm : p ∈ l
      · rw [if_pos hm, if_pos (hmem.mpr hm)]
      · rw [if_neg hm, if_neg (fun hc => hm (hmem.mp hc))]

/-- Integer-valued multiplicity of an integer in a list of integers. -/
def ihits (l : List Int) (x : Int) : Int :=
  (l.map (fun y => if y = x then (1 : Int) else 0)).sum

lemma ihits_nil (x : Int) : ihits [] x = 0 := rfl

lemma ihits_cons (y : Int) (l : List Int) (x : Int) :
    ihits (y :: l) x = (if y = x then 1 else 0) + ihits l x := by
  simp [ihits]

lemma ihits_append (l₁ l₂ : List Int) (x : Int) :
    ihits (l₁ ++ l₂) x = ihits l₁ x + ihits l₂ x := by
  simp [ihits]

lemma ihits_nodup (l : List Int) (h : l.Nodup) (x : Int) :
    ihits l x = if x ∈ l then 1 else 0 := by
  induction l with
  | nil => simp [ihits_nil]
  | cons y l ih =>
    rw [ihits_cons, ih (List.nodup_cons.mp h).2]
    by_cases hy : y = x
    · subst hy
      have hnm : y ∉ l := (List.nodup_cons.mp h).1
      simp [hnm]
    · have hmem : (x ∈ y :: l) ↔ x ∈ l := by
        constructor
        · intro hp
          rcases List.mem_cons.mp hp with hp | hp
          · exact absurd hp.symm hy
          · exact hp
        · exact fun hp => List.mem_cons_of_mem _ hp
      rw [if_neg hy, zero_add]
      by_cases hm : x ∈ l
      · rw [if_pos hm, if_pos (hmem.mpr hm)]
      · rw [if_neg hm, if_neg (fun hc => hm (hmem.mp hc))]

lemma foldl_N_DEC_alive (l : List Pos) (bd : EBoard) (q : Pos) :
    ((l.foldl N_DEC bd) q).alive = (bd q).alive := by
  induction l generalizing bd with
  | nil => rfl
  | cons p l ih =>
    rw [List.foldl_cons, ih]
    by_cases h : q = p <;> simp [N_DEC, updB, h]

lemma foldl_N_INC_alive (l : List Pos) (bd : EBoard) (q : Pos) :
    ((l.foldl N_INC bd) q).alive = (bd q).alive := by
  induction l generalizing bd with
  | nil => rfl
  | cons p l ih =>
    rw [List.foldl_cons, ih]
    by_cases h : q = p <;> simp [N_INC, updB, h]

lemma foldl_N_DEC_count (l : List Pos) (bd : EBoard) (q : Pos) :
    ((l.foldl N_DEC bd) q).count = (bd q).count - hits l q := by
  induction l generalizing bd with
  | nil => simp [hits_nil]
  | cons p l ih =>
    rw [List.foldl_cons, ih, hits_cons]
    by_cases h : p = q
    · subst h
      simp [N_DEC, updB]
      ring
    · have h2 : ¬(q = p) := fun hq => h hq.symm
      simp only [N_DEC, updB, if_neg h2, if_neg h]
      ring

lemma foldl_N_INC_count (l : List Pos) (bd : EBoard) (q : Pos) :
    ((l.foldl N_INC bd) q).count = (bd q).count + hits l q := by
  induction l generalizing bd with
  | nil => simp [hits_nil]
  | cons p l ih =>
    rw [List.foldl_cons, ih, hits_cons]
    by_cases h : p = q
    · subst h
      simp [N_INC, updB]
      ring
    · have h2 : ¬(q = p) := fun hq => h hq.symm
      simp only [N_INC, updB, if_neg h2, if_neg h]
      ring

/-- `do_cell` written as a guarded fold over the neighbor list. -/
lemma do_cell_eq (outboard inboard : EBoard) (i j n : Int) :
    do_cell outboard inboard i j n =
      if activeKill (inboard (i, j)) then
        (nbrList n (i, j)).foldl N_DEC (updB outboard (i, j) (KILL (outboard (i, j))))
      else if activeSpawn (inboard (i, j)) then
        (nbrList n (i, j)).foldl N_INC (updB outboard (i, j) (SPAWN (outboard (i, j))))
      else outboard := by
  cases h1 : ALIVE (inboard (i, j))
  · cases h2 : TOSPAWN (inboard (i, j)) <;>
      simp [do_cell, h1, h2, activeKill, activeSpawn, nbrList, List.foldl]
  · cases h2 : TOKILL (inboard (i, j)) <;>
      simp [do_cell, h1, h2, activeKill, activeSpawn, nbrList, List.foldl]

/-- The only alive flag `do_cell` can change is the one at `(i, j)`; it
becomes `false` on a kill, `true` on a spawn, and is untouched otherwise. -/
lemma do_cell_alive (outboard inboard : EBoard) (i j n : Int) (q : Pos) :
    ((do_cell outboard inboard i j n) q).alive =
      if q = (i, j) ∧ activeKill (inboard (i, j)) = true then false
      else if q = (i, j) ∧ activeSpawn (inboard (i, j)) = true then true
      else (outboard q).alive := by
  rw [do_cell_eq]
  by_cases h1 : activeKill (inboard (i, j)) = true
  · have h3 := activeSpawn_of_activeKill _ h1
    rw [if_pos h1]
    rw [foldl_N_DEC_alive]
    by_cases h : q = (i, j) <;> simp [updB, KILL, h, h1, h3]
  · rw [if_neg h1]
    by_cases h2 : activeSpawn (inboard (i, j)) = true
    · rw [if_pos h2, foldl_N_INC_alive]
      by_cases h : q = (i, j) <;> simp [updB, SPAWN, h, h1, h2]
    · rw [if_neg h2]
      simp [h1, h2]

/-- `do_cell` adds `cellDelta` of the current cell, multiplied by the
number of occurrences of `q` in the neighbor list, to every count field. -/
lemma do_cell_count (outboard inboard : EBoard) (i j n : Int) (q : Pos) :
    ((do_cell outboard inboard i j n) q).count =
      (outboard q).count +
        cellDelta (inboard (i, j)) * hits (nbrList n (i, j)) q := by
  rw [do_cell_eq]
  by_cases h1 : activeKill (inboard (i, j)) = true
  · rw [if_pos h1, foldl_N_DEC_count, cellDelta, if_pos h1]
    by_cases h : q = (i, j) <;> simp [updB, KILL, h] <;> ring
  · rw [if_neg h1]
    by_cases h2 : activeSpawn (inboard (i, j)) = true
    · rw [if_pos h2, foldl_N_INC_count, cellDelta, if_neg h1, if_pos h2]
      by_cases h : q = (i, j) <;> simp [updB, SPAWN, h] <;> ring
    · rw [if_neg h2]
      simp [cellDelta, h1, h2]

/-- The inlined locked boundary update of the worker computes exactly
`do_cell`. -/
lemma boundary_update_eq_do_cell (outboard inboard : EBoard) (i j n : Int) :
    boundary_update outboard inboard i j n = do_cell outboard inboard i j n := by
  cases h1 : ALIVE (inboard (i, j)) <;>
    simp [boundary_update, do_cell, kill_cell, spawn_cell, h1]

/-! ### Closed forms for a fold of `do_cell` over a list of positions -/

lemma applyCells_nil (outboard inboard : EBoard) (n : Int) :
    applyCells outboard inboard [] n = outboard := rfl

lemma applyCells_cons (outboard inboard : EBoard) (p : Pos) (l : List Pos) (n : Int) :
    applyCells outboard inboard (p :: l) n =
      applyCells (do_cell outboard inboard p.1 p.2 n) inboard l n := rfl

lemma applyCells_append (outboard inboard : EBoard) (l₁ l₂ : List Pos) (n : Int) :
    applyCells outboard inboard (l₁ ++ l₂) n =
      applyCells (applyCells outboard inboard l₁ n) inboard l₂ n :=
  List.foldl_append _ _ _ _

/-- Alive flags after a fold of `do_cell`: positions in the list get the flag
their transition dictates (reading only `inboard`), all others keep the flag
of the initial next buffer.  Duplicate occurrences are harmless because the
flag written depends only on `inboard`. -/
lemma applyCells_alive (l : List Pos) (outboard inboard : EBoard) (n : Int) (q : Pos) :
    ((applyCells outboard inboard l n) q).alive =
      if q ∈ l ∧ activeKill (inboard q) = true then false
      else if q ∈ l ∧ activeSpawn (inboard q) = true then true
      else (outboard q).alive := by
  induction l generalizing outboard with
  | nil => simp [applyCells]
  | cons p l ih =>
    rw [applyCells_cons, ih]
    have heq : ((p.1, p.2) : Pos) = p := Prod.mk.eta
    by_cases hqp : q = p
    · subst hqp
      by_cases hk : activeKill (inboard q) = true
      · simp [do_cell_alive, heq, hk, activeSpawn_of_activeKill _ hk]
      · by_cases hs : activeSpawn (inboard q) = true
        · simp [do_cell_alive, heq, hk, hs]
        · simp [do_cell_alive, heq, hk, hs]
    · have hmem : (q ∈ p :: l) ↔ q ∈ l := by
        simp [List.mem_cons, hqp]
      have hne : ¬(q = (p.1, p.2)) := by rw [heq]; exact hqp
      simp only [hmem, do_cell_alive, hne, false_and, if_false]

/-- Count fields after a fold of `do_cell`: every position of the list
contributes its delta once per occurrence, weighted by how often the queried
cell appears in its neighbor list. -/
lemma applyCells_count (l : List Pos) (outboard inboard : EBoard) (n : Int) (q : Pos) :
    ((applyCells outboard inboard l n) q).count =
      (outboard q).count +
        (l.map (fun p => cellDelta (inboard p) * hits (nbrList n p) q)).sum := by
  induction l generalizing outboard with
  | nil => simp [applyCells]
  | cons p l ih =>
    rw [applyCells_cons, ih, do_cell_count]
    have heq : ((p.1, p.2) : Pos) = p := Prod.mk.eta
    rw [heq, List.map_cons, List.sum_cons]
    ring

/-! ### Arithmetic helpers for integer ranges and list counts -/

lemma mem_intRange {a b x : Int} : x ∈ intRange a b ↔ a ≤ x ∧ x < b := by
  unfold intRange
  constructor
  · intro hx
    obtain ⟨k, hk, rfl⟩ := List.mem_map.mp hx
    have := List.mem_range.mp hk
    omega
  · intro h
    refine List.mem_map.mpr ⟨(x - a).toNat, List.mem_range.mpr (by omega), by omega⟩

lemma intRange_nodup (a b : Int) : (intRange a b).Nodup := by
  have hinj : Function.Injective (fun (k : Nat) => a + (k : Int)) := by
    intro x y h
    simp only [add_right_inj, Int.natCast_inj] at h
    exact h
  exact (List.nodup_range _).map hinj

lemma count_intRange (a b x : Int) :
    (intRange a b).count x = if a ≤ x ∧ x < b then 1 else 0 := by
  by_cases h : a ≤ x ∧ x < b
  · rw [if_pos h]
    exact List.count_eq_one_of_mem (intRange_nodup a b) (mem_intRange.mpr h)
  · rw [if_neg h]
    exact List.count_eq_zero.mpr (fun hc => h (mem_intRange.mp hc))

lemma intRange_append {a b c : Int} (h1 : a ≤ b) (h2 : b ≤ c) :
    intRange a b ++ intRange b c = intRange a c := by
  unfold intRange
  have hbc : (c - a).toNat = (b - a).toNat + (c - b).toNat := by omega
  rw [hbc, List.range_add, List.map_append, List.map_map]
  congr 1
  apply List.map_congr_left
  intro k hk
  simp only [Function.comp_apply]
  omega

lemma map_eq_of_mem {α β : Type} {l : List α} {f g : α → β}
    (h : ∀ x ∈ l, f x = g x) : l.map f = l.map g := by
  induction l with
  | nil => rfl
  | cons x l ih =>
    rw [List.map_cons, List.map_cons, h x (List.mem_cons_self _ _),
      ih (fun y hy => h y (List.mem_cons_of_mem _ hy))]

lemma intRange_empty {a b : Int} (h : b ≤ a) : intRange a b = [] := by
  unfold intRange
  have : (b - a).toNat = 0 := by omega
  rw [this]
  rfl

lemma sum_map_flatMap {α γ : Type} (l : List α) (f : α → List γ) (F : γ → Int) :
    ((l.flatMap f).map F).sum = (l.map (fun x => ((f x).map F).sum)).sum := by
  induction l with
  | nil => rfl
  | cons x l ih =>
    simp [List.flatMap_cons, List.map_append, List.sum_append, ih]

/-- A sum over a list where the single position `c` (appearing with
multiplicity one) carries the only nonzero term. -/
lemma sum_eq_of_single (l : List Pos) (f : Pos → Int) (c : Pos)
    (h1 : hits l c = 1) (h0 : ∀ x ∈ l, x ≠ c → f x = 0) :
    (l.map f).sum = f c := by
  induction l with
  | nil => simp [hits_nil] at h1
  | cons x l ih =>
    rw [List.map_cons, List.sum_cons]
    rw [hits_cons] at h1
    by_cases hx : x = c
    · subst hx
      rw [if_pos rfl] at h1
      have hz : hits l x = 0 := by omega
      have hnm : x ∉ l := (hits_eq_zero_iff l x).mp hz
      have : (l.map f).sum = 0 := by
        rw [List.sum_eq_zero]
        intro y hy
        rcases List.mem_map.mp hy with ⟨z, hz2, rfl⟩
        exact h0 z (List.mem_cons_of_mem _ hz2) (fun hzc => hnm (hzc ▸ hz2))
      rw [this]; ring
    · rw [if_neg hx, zero_add] at h1
      rw [h0 x (List.mem_cons_self _ _) hx, zero_add]
      exact ih h1 (fun y hy hyc => h0 y (List.mem_cons_of_mem _ hy) hyc)

lemma sum_map_swap {α β : Type} (l₁ : List α) (l₂ : List β) (g : α → β → Int) :
    (l₁.map (fun a => (l₂.map (fun b => g a b)).sum)).sum =
      (l₂.map (fun b => (l₁.map (fun a => g a b)).sum)).sum := by
  induction l₁ with
  | nil => simp
  | cons x l ih =>
    simp only [List.map_cons, List.sum_cons]
    rw [ih, ← List.sum_map_add]

/-! ### Grid enumeration and toroidal wrap arithmetic -/

lemma nodup_pair_product (l₁ l₂ : List Int) (h₁ : l₁.Nodup) (h₂ : l₂.Nodup) :
    (l₁.flatMap (fun i => l₂.map (fun j => ((i, j) : Pos)))).Nodup := by
  induction l₁ with
  | nil => simp
  | cons i l ih =>
    rw [List.flatMap_cons, List.nodup_append]
    refine ⟨h₂.map (fun a b hab => ?_), ih (List.nodup_cons.mp h₁).2, ?_⟩
    · exact (Prod.mk.injEq _ _ _ _ ▸ hab).2
    · intro p hp hp2
      rcases List.mem_map.mp hp with ⟨j, _, rfl⟩
      rcases List.mem_flatMap.mp hp2 with ⟨i2, hi2, hp3⟩
      rcases List.mem_map.mp hp3 with ⟨j2, _, hje⟩
      have : i2 = i := (Prod.mk.injEq _ _ _ _ ▸ hje).1
      exact (List.nodup_cons.mp h₁).1 (this ▸ hi2)

lemma mem_gridList {n : Int} {p : Pos} : p ∈ gridList n ↔ inRange n p := by
  unfold gridList inRange
  constructor
  · intro hp
    obtain ⟨i, hi, hp2⟩ := List.mem_flatMap.mp hp
    obtain ⟨j, hj, rfl⟩ := List.mem_map.mp hp2
    obtain ⟨hi1, hi2⟩ := mem_intRange.mp hi
    obtain ⟨hj1, hj2⟩ := mem_intRange.mp hj
    exact ⟨hi1, hi2, hj1, hj2⟩
  · intro ⟨h1, h2, h3, h4⟩
    refine List.mem_flatMap.mpr ⟨p.1, mem_intRange.mpr ⟨h1, h2⟩, ?_⟩
    exact List.mem_map.mpr ⟨p.2, mem_intRange.mpr ⟨h3, h4⟩, Prod.mk.eta⟩

lemma gridList_nodup (n : Int) : (gridList n).Nodup :=
  nodup_pair_product _ _ (intRange_nodup 0 n) (intRange_nodup 0 n)

lemma hits_gridList (n : Int) (p : Pos) :
    hits (gridList n) p = if inRange n p then 1 else 0 := by
  rw [hits_nodup _ (gridList_nodup n)]
  by_cases h : inRange n p
  · rw [if_pos (mem_gridList.mpr h), if_pos h]
  · rw [if_neg (fun hc => h (mem_gridList.mp hc)), if_neg h]

lemma mod_inRange {n : Int} (hn : 0 < n) (x y : Int) : inRange n (mod x n, mod y n) := by
  unfold inRange mod
  have h1 := Int.emod_nonneg x (by omega : n ≠ 0)
  have h2 := Int.emod_lt_of_pos x hn
  have h3 := Int.emod_nonneg y (by omega : n ≠ 0)
  have h4 := Int.emod_lt_of_pos y hn
  exact ⟨h1, h2, h3, h4⟩

lemma mod_bounds {n : Int} (hn : 0 < n) (x : Int) : 0 ≤ mod x n ∧ mod x n < n :=
  ⟨Int.emod_nonneg x (by omega), Int.emod_lt_of_pos x hn⟩

lemma mod_eq_self {n x : Int} (h1 : 0 ≤ x) (h2 : x < n) : mod x n = x :=
  Int.emod_eq_of_lt h1 h2


/-- Uniqueness of the toroidally shifted preimage: for in-range `q` and `x`,
`q + d` wraps to `x` exactly when `q` is `x - d` wrapped. -/
lemma wrap_eq_iff {n : Int} (hn : 0 < n) {q x d : Int}
    (hq1 : 0 ≤ q) (hq2 : q < n) (hx1 : 0 ≤ x) (hx2 : x < n) :
    mod (q + d) n = x ↔ q = mod (x - d) n := by
  unfold mod
  constructor
  · intro h
    have step : ((q + d) % n - d) % n = (q + d - d) % n := by
      rw [Int.sub_emod ((q + d) % n) d n, Int.emod_emod_of_dvd _ dvd_rfl, ← Int.sub_emod]
    calc q = q % n := (Int.emod_eq_of_lt hq1 hq2).symm
      _ = (q + d - d) % n := by ring_nf
      _ = ((q + d) % n - d) % n := step.symm
      _ = (x - d) % n := by rw [h]
  · intro h
    calc (q + d) % n = ((x - d) % n + d) % n := by rw [h]
      _ = (x - d + d) % n := Int.emod_add_emod _ _ _
      _ = x % n := by ring_nf
      _ = x := Int.emod_eq_of_lt hx1 hx2

lemma hits_nbrListW (n : Int) (q p : Pos) :
    hits (nbrListW n q) p =
      (offsets.map (fun d =>
        if (mod (q.1 + d.1) n, mod (q.2 + d.2) n) = p then (1 : Int) else 0)).sum := by
  rw [hits, nbrListW, List.map_map]
  rfl

/-- Transport of a grid-wide weighted sum of neighbor hits into a plain sum
over the neighbors of the observed cell: each offset has exactly one in-range
source cell hitting `p`, and the offset set is closed under negation. -/
lemma sum_weight {n : Int} (hn : 0 < n) (w : Pos → Int) (p : Pos) (hp : inRange n p) :
    ((gridList n).map (fun q => w q * hits (nbrListW n q) p)).sum
      = ((nbrListW n p).map w).sum := by
  obtain ⟨hp1, hp2, hp3, hp4⟩ := hp
  have step1 : ∀ q ∈ gridList n,
      w q * hits (nbrListW n q) p =
        (offsets.map (fun d => w q * (if (mod (q.1 + d.1) n, mod (q.2 + d.2) n) = p
          then (1 : Int) else 0))).sum := by
    intro q _
    rw [hits_nbrListW, ← List.sum_map_mul_left]
  rw [List.map_congr_left step1, sum_map_swap]
  have step2 : ∀ d ∈ offsets,
      ((gridList n).map (fun q =>
        w q * (if (mod (q.1 + d.1) n, mod (q.2 + d.2) n) = p then (1 : Int) else 0))).sum
      = w (mod (p.1 - d.1) n, mod (p.2 - d.2) n) := by
    intro d _
    set c : Pos := (mod (p.1 - d.1) n, mod (p.2 - d.2) n) with hc
    have hcr : inRange n c := mod_inRange hn _ _
    have hkey : ∀ q : Pos, inRange n q →
        ((mod (q.1 + d.1) n, mod (q.2 + d.2) n) = p ↔ q = c) := by
      intro q hq
      obtain ⟨hq1, hq2, hq3, hq4⟩ := hq
      rw [Prod.ext_iff, Prod.ext_iff]
      constructor
      · intro ⟨ha, hb⟩
        exact ⟨(wrap_eq_iff hn hq1 hq2 hp1 hp2).mp ha,
          (wrap_eq_iff hn hq3 hq4 hp3 hp4).mp hb⟩
      · intro ⟨ha, hb⟩
        exact ⟨(wrap_eq_iff hn hq1 hq2 hp1 hp2).mpr ha,
          (wrap_eq_iff hn hq3 hq4 hp3 hp4).mpr hb⟩
    have hone : hits (gridList n) c = 1 := by
      rw [hits_gridList, if_pos hcr]
    have hsum := sum_eq_of_single (gridList n)
      (fun q => w q * (if (mod (q.1 + d.1) n, mod (q.2 + d.2) n) = p then (1 : Int) else 0))
      c hone ?_
    · rw [hsum]
      show w c * (if (mod (c.1 + d.1) n, mod (c.2 + d.2) n) = p then (1 : Int) else 0) = w c
      rw [if_pos ((hkey c hcr).mpr rfl), mul_one]
    · intro x hx hxc
      show w x * (if (mod (x.1 + d.1) n, mod (x.2 + d.2) n) = p then (1 : Int) else 0) = 0
      rw [if_neg (fun hcontra => hxc ((hkey x (mem_gridList.mp hx)).mp hcontra)), mul_zero]
  rw [List.map_congr_left step2]
  have hneg : (offsets.map (fun d => w (mod (p.1 - d.1) n, mod (p.2 - d.2) n))).sum
      = (offsets.map (fun d => w (mod (p.1 + d.1) n, mod (p.2 + d.2) n))).sum := by
    simp only [offsets, List.map_cons, List.map_nil, List.sum_cons, List.sum_nil,
      sub_neg_eq_add, sub_zero, add_zero]
    ring
  rw [hneg, nbrListW, List.map_map]
  rfl

/-! ### The worker passes as folds of `do_cell` over the generation order -/

lemma worker_col_pass_eq (outboard inboard : EBoard) (size m s j : Int) :
    worker_col_pass outboard inboard size m s j =
      applyCells outboard inboard
        ((worker_slice_rows m s).map (fun i => ((i, j) : Pos))) size := by
  unfold worker_col_pass worker_slice_rows applyCells
  rw [List.map_append, List.map_append, List.foldl_append, List.foldl_append]
  simp only [boundary_update_eq_do_cell, List.foldl_map]

lemma foldl_worker_col_pass (cols : List Int) (outboard inboard : EBoard) (size m s : Int) :
    (cols.foldl (fun o j => worker_col_pass o inboard size m s j) outboard) =
      applyCells outboard inboard
        (cols.flatMap (fun j => (worker_slice_rows m s).map (fun i => (i, j)))) size := by
  induction cols generalizing outboard with
  | nil => rfl
  | cons j cols ih =>
    rw [List.foldl_cons, List.flatMap_cons, applyCells_append, ih, worker_col_pass_eq]

lemma worker_generation_pass_eq (outboard inboard : EBoard) (size ncols m s : Int) :
    worker_generation_pass outboard inboard size ncols m s =
      applyCells outboard inboard
        ((intRange 0 ncols).flatMap
          (fun j => (worker_slice_rows m s).map (fun i => (i, j)))) size :=
  foldl_worker_col_pass _ _ _ _ _ _

lemma foldl_worker_generation_pass (ss : List Int) (outboard inboard : EBoard)
    (size ncols m : Int) :
    (ss.foldl (fun o s => worker_generation_pass o inboard size ncols m s) outboard) =
      applyCells outboard inboard
        (ss.flatMap (fun s => (intRange 0 ncols).flatMap
          (fun j => (worker_slice_rows m s).map (fun i => (i, j))))) size := by
  induction ss generalizing outboard with
  | nil => rfl
  | cons s ss ih =>
    rw [List.foldl_cons, List.flatMap_cons, applyCells_append, ih, worker_generation_pass_eq]

lemma one_generation_out (t nrows ncols : Nat) (st : EBoard × EBoard) :
    (one_generation t nrows ncols st).2 =
      applyCells st.2 st.1 (generation_order t nrows ncols) (nrows : Int) := by
  unfold one_generation generation_order
  exact foldl_worker_generation_pass _ _ _ _ _ _

/-- Every row the slice walks lies inside the slice band when the slice has
at least two rows. -/
lemma mem_worker_slice_rows {m s i : Int} (hm : 2 ≤ m) (h : i ∈ worker_slice_rows m s) :
    s * m ≤ i ∧ i < s * m + m := by
  unfold worker_slice_rows at h
  rcases List.mem_append.mp h with h | h
  · rcases List.mem_append.mp h with h | h
    · have := mem_intRange.mp h; omega
    · have := mem_intRange.mp h; omega
  · have := mem_intRange.mp h; omega

/-- Every position of the generation order is in range, for square boards
with an exact slice decomposition of at least two rows per slice. -/
lemma mem_generation_order_inRange {t nrows : Nat} {p : Pos}
    (ht : 0 < t) (hdvd : t ∣ nrows) (hm : 2 ≤ (nrows : Int) / (t : Int))
    (h : p ∈ generation_order t nrows nrows) : inRange (nrows : Int) p := by
  unfold generation_order at h
  set m : Int := (nrows : Int) / (t : Int) with hmdef
  have htm : (t : Int) * m = (nrows : Int) := by
    rw [hmdef]
    exact Int.mul_ediv_cancel' (Int.natCast_dvd_natCast.mpr hdvd)
  rcases List.mem_flatMap.mp h with ⟨s, hs, h2⟩
  rcases List.mem_flatMap.mp h2 with ⟨j, hj, h3⟩
  rcases List.mem_map.mp h3 with ⟨i, hi, rfl⟩
  have hsr := mem_intRange.mp hs
  have hjr := mem_intRange.mp hj
  have hir := mem_worker_slice_rows hm hi
  have hs1 : (0 : Int) ≤ s := hsr.1
  have hs2 : s < (t : Int) := hsr.2
  have hmul : (s + 1) * m ≤ (t : Int) * m := by
    apply mul_le_mul_of_nonneg_right _ (by omega : (0 : Int) ≤ m)
    omega
  constructor
  · show 0 ≤ i
    nlinarith
  refine ⟨?_, hjr.1, hjr.2⟩
  show i < (nrows : Int)
  have : s * m + m ≤ (t : Int) * m := by nlinarith
  omega

/-- All positions whose cells `do_cell` at an in-range position can touch are
in range. -/
lemma nbrList_inRange {n : Int} (hn : 0 < n) {q : Pos} (hq : inRange n q) :
    ∀ r ∈ nbrList n q, inRange n r := by
  intro r hr
  obtain ⟨h1, h2, h3, h4⟩ := hq
  have w1 := mod_bounds hn (q.1 - 1)
  have w2 := mod_bounds hn (q.1 + 1)
  have w3 := mod_bounds hn (q.2 - 1)
  have w4 := mod_bounds hn (q.2 + 1)
  simp only [nbrList, List.mem_cons, List.not_mem_nil, or_false] at hr
  rcases hr with rfl | rfl | rfl | rfl | rfl | rfl | rfl | rfl <;>
    exact ⟨by simp; omega, by simp; omega, by simp; omega, by simp; omega⟩

lemma cell_ext {c d : Cell} (h1 : c.alive = d.alive) (h2 : c.count = d.count) : c = d := by
  cases c; cases d; simp_all

/-- A fold of `do_cell` over in-range positions never touches out-of-range
cells of the next buffer. -/
lemma applyCells_eq_of_notInRange {n : Int} (hn : 0 < n) (l : List Pos)
    (outboard inboard : EBoard) (hl : ∀ q ∈ l, inRange n q) (p : Pos)
    (hp : ¬ inRange n p) : applyCells outboard inboard l n p = outboard p := by
  apply cell_ext
  · rw [applyCells_alive]
    rw [if_neg (fun hc => hp (hl p hc.1)), if_neg (fun hc => hp (hl p hc.1))]
  · rw [applyCells_count]
    have hz : ∀ q ∈ l, cellDelta (inboard q) * hits (nbrList n q) p = 0 := by
      intro q hq
      have : p ∉ nbrList n q := fun hc => hp (nbrList_inRange hn (hl q hq) p hc)
      rw [(hits_eq_zero_iff _ _).mpr this, mul_zero]
    have : ((l.map (fun q => cellDelta (inboard q) * hits (nbrList n q) p)).sum) = 0 := by
      rw [List.sum_eq_zero]
      intro y hy
      rcases List.mem_map.mp hy with ⟨q, hq, rfl⟩
      exact hz q hq
    rw [this, add_zero]

/-- One generation of the engine as a function on a single encoded buffer:
the fold of the transition over the full generation order, next buffer
starting as a copy of the current one. -/
def engine_gen (t nrows ncols : Nat) (bd : EBoard) : EBoard :=
  applyCells bd bd (generation_order t nrows ncols) (nrows : Int)

lemma size_pos_of_slices {t nrows : Nat} (ht : 0 < t) (hdvd : t ∣ nrows)
    (hm : 2 ≤ (nrows : Int) / (t : Int)) : 0 < (nrows : Int) := by
  have htm : (t : Int) * ((nrows : Int) / (t : Int)) = (nrows : Int) :=
    Int.mul_ediv_cancel' (Int.natCast_dvd_natCast.mpr hdvd)
  have ht1 : (1 : Int) ≤ (t : Int) := by exact_mod_cast ht
  nlinarith

/-- On equal buffers, one generation produces equal buffers again: the
workers write the new state into the next buffer and copy their bands back,
and no position outside the grid is ever written. -/
lemma one_generation_diag {t nrows : Nat} (bd : EBoard) (ht : 0 < t) (hdvd : t ∣ nrows)
    (hm : 2 ≤ (nrows : Int) / (t : Int)) :
    one_generation t nrows nrows (bd, bd) =
      (engine_gen t nrows nrows bd, engine_gen t nrows nrows bd) := by
  have hn : 0 < (nrows : Int) := size_pos_of_slices ht hdvd hm
  have htm : (t : Int) * ((nrows : Int) / (t : Int)) = (nrows : Int) :=
    Int.mul_ediv_cancel' (Int.natCast_dvd_natCast.mpr hdvd)
  have hout : (one_generation t nrows nrows (bd, bd)).2 = engine_gen t nrows nrows bd :=
    one_generation_out t nrows nrows (bd, bd)
  refine Prod.ext ?_ hout
  show (fun p => if 0 ≤ p.1 ∧ p.1 < (t : Int) * ((nrows : Int) / (t : Int))
    then (one_generation t nrows nrows (bd, bd)).2 p else bd p) = engine_gen t nrows nrows bd
  funext p
  by_cases hc : 0 ≤ p.1 ∧ p.1 < (t : Int) * ((nrows : Int) / (t : Int))
  · rw [if_pos hc, hout]
  · rw [if_neg hc]
    have hp : ¬ inRange (nrows : Int) p := by
      rw [htm] at hc
      intro hir
      exact hc ⟨hir.1, hir.2.1⟩
    exact (applyCells_eq_of_notInRange hn _ _ _
      (fun q hq => mem_generation_order_inRange ht hdvd hm hq) p hp).symm

/-- Under an exact slice decomposition both engine buffers evolve in
lockstep: after any number of generations the state is the iterate of
`engine_gen` on both components. -/
lemma engine_state_eq {t nrows : Nat} (ht : 0 < t) (hdvd : t ∣ nrows)
    (hm : 2 ≤ (nrows : Int) / (t : Int)) (g : Nat) (b : PBoard) :
    engine_state t nrows nrows g b =
      ((engine_gen t nrows nrows)^[g] (preprocessing_board b nrows),
       (engine_gen t nrows nrows)^[g] (preprocessing_board b nrows)) := by
  induction g with
  | zero => rfl
  | succ g ih =>
    unfold engine_state at ih ⊢
    rw [Function.iterate_succ_apply', ih, one_generation_diag _ ht hdvd hm,
      Function.iterate_succ_apply']

/-! ### The generation order as an exact grid enumeration when slices have
at least four rows -/

lemma intRange_single (a : Int) : intRange a (a + 1) = [a] := by
  unfold intRange
  have h1 : (a + 1 - a).toNat = 1 := by omega
  rw [h1]
  simp [List.range_succ]

lemma worker_slice_rows_eq {m : Int} (hm : 4 ≤ m) (s : Int) :
    worker_slice_rows m s = intRange (s * m) (s * m + m) := by
  unfold worker_slice_rows
  rw [intRange_append (by omega) (by omega), intRange_append (by omega) (by omega)]

lemma flatMap_intRange_slices (m : Int) (hm : 0 ≤ m) (k : Nat) :
    (intRange 0 (k : Int)).flatMap (fun s => intRange (s * m) (s * m + m)) =
      intRange 0 ((k : Int) * m) := by
  induction k with
  | zero =>
    rw [show ((0 : Nat) : Int) = 0 from rfl, intRange_empty (le_refl 0)]
    rw [show (0 : Int) * m = 0 from by ring, intRange_empty (le_refl 0)]
    rfl
  | succ k ih =>
    have hk : ((k + 1 : Nat) : Int) = (k : Int) + 1 := by push_cast; ring
    rw [hk, ← intRange_append (by positivity : (0 : Int) ≤ (k : Int)) (by omega),
      intRange_single, List.flatMap_append, ih]
    have hsingle : ([(k : Int)].flatMap (fun s => intRange (s * m) (s * m + m))) =
        intRange ((k : Int) * m) ((k : Int) * m + m) := by
      simp [List.flatMap_cons]
    rw [hsingle, intRange_append (by positivity) (by omega)]
    congr 1
    ring

lemma generation_order_eq {t nrows : Nat} (hm4 : 4 ≤ (nrows : Int) / (t : Int)) :
    generation_order t nrows nrows =
      (intRange 0 (t : Int)).flatMap (fun s =>
        (intRange 0 (nrows : Int)).flatMap (fun j =>
          (intRange (s * ((nrows : Int) / (t : Int)))
            (s * ((nrows : Int) / (t : Int)) + (nrows : Int) / (t : Int))).map
              (fun i => (i, j)))) := by
  unfold generation_order
  simp only [worker_slice_rows_eq hm4]

/-- With at least four rows per slice and an exact decomposition, summing any
integer-valued function over the generation order is summing it over the grid:
the order visits every in-range cell exactly once. -/
lemma sum_over_generation_order {t nrows : Nat} (ht : 0 < t) (hdvd : t ∣ nrows)
    (hm4 : 4 ≤ (nrows : Int) / (t : Int)) (F : Pos → Int) :
    ((generation_order t nrows nrows).map F).sum = ((gridList (nrows : Int)).map F).sum := by
  set m : Int := (nrows : Int) / (t : Int) with hmdef
  have htm : (t : Int) * m = (nrows : Int) :=
    Int.mul_ediv_cancel' (Int.natCast_dvd_natCast.mpr hdvd)
  have colSum : ∀ (rows : List Int),
      (((intRange 0 (nrows : Int)).flatMap
        (fun j => rows.map (fun i => ((i, j) : Pos)))).map F).sum =
      (rows.map (fun i => ((intRange 0 (nrows : Int)).map (fun j => F (i, j))).sum)).sum := by
    intro rows
    rw [sum_map_flatMap]
    have h1 : ∀ j ∈ intRange 0 (nrows : Int),
        ((rows.map (fun i => ((i, j) : Pos))).map F).sum =
          (rows.map (fun i => F (i, j))).sum := by
      intro j _
      rw [List.map_map]
      rfl
    rw [List.map_congr_left h1, sum_map_swap]
  rw [generation_order_eq hm4, sum_map_flatMap]
  have h2 : ∀ s ∈ intRange 0 (t : Int),
      ((((intRange 0 (nrows : Int)).flatMap
        (fun j => (intRange (s * m) (s * m + m)).map (fun i => ((i, j) : Pos)))).map F).sum) =
      ((intRange (s * m) (s * m + m)).map
        (fun i => ((intRange 0 (nrows : Int)).map (fun j => F (i, j))).sum)).sum := by
    intro s _
    exact colSum _
  rw [List.map_congr_left h2, ← sum_map_flatMap, flatMap_intRange_slices m (by omega) t, htm]
  unfold gridList
  rw [sum_map_flatMap]
  have h3 : ∀ i ∈ intRange 0 (nrows : Int),
      (((intRange 0 (nrows : Int)).map (fun j => ((i, j) : Pos))).map F).sum =
        ((intRange 0 (nrows : Int)).map (fun j => F (i, j))).sum := by
    intro i _
    rw [List.map_map]
    rfl
  rw [List.map_congr_left h3]

/-- With at least four rows per slice, the generation order hits every
in-range cell exactly once. -/
lemma hits_generation_order {t nrows : Nat} (ht : 0 < t) (hdvd : t ∣ nrows)
    (hm4 : 4 ≤ (nrows : Int) / (t : Int)) (p : Pos) :
    hits (generation_order t nrows nrows) p = if inRange (nrows : Int) p then 1 else 0 := by
  rw [hits, sum_over_generation_order ht hdvd hm4, ← hits, hits_gridList]

lemma mem_generation_order_of_inRange {t nrows : Nat} (ht : 0 < t) (hdvd : t ∣ nrows)
    (hm4 : 4 ≤ (nrows : Int) / (t : Int)) {p : Pos} (hp : inRange (nrows : Int) p) :
    p ∈ generation_order t nrows nrows := by
  by_contra hc
  have := (hits_eq_zero_iff _ _).mpr hc
  rw [hits_generation_order ht hdvd hm4, if_pos hp] at this
  omega

/-! ### The encoding relation and its preservation by one generation -/

/-- The encoded buffer `e` represents the plain board `β`: in range, the
alive flags match the plain cells, and every neighbor-count field is the
exact number of alive toroidal neighbors (the central invariant). -/
def encodes (n : Int) (e : EBoard) (β : PBoard) : Prop :=
  ∀ p, inRange n p → (((e p).alive = true) ↔ β p = 1) ∧ (e p).count = liveNb n e p

lemma nbrListW_inRange {n : Int} (hn : 0 < n) (p : Pos) :
    ∀ r ∈ nbrListW n p, inRange n r := by
  intro r hr
  rcases List.mem_map.mp hr with ⟨d, _, rfl⟩
  exact mod_inRange hn _ _

lemma nbrList_eq_W {n : Int} {p : Pos} (hp : inRange n p) :
    nbrList n p = nbrListW n p := by
  obtain ⟨h1, h2, h3, h4⟩ := hp
  have e1 : p.1 + (-1 : Int) = p.1 - 1 := by ring
  have e2 : p.2 + (-1 : Int) = p.2 - 1 := by ring
  unfold nbrList nbrListW offsets
  simp only [List.map_cons, List.map_nil]
  rw [e1, e2, add_zero, add_zero]
  rw [mod_eq_self h1 h2, mod_eq_self h3 h4]

lemma liveNb_eq_naiveCount {n : Int} (hn : 0 < n) (e : EBoard) (β : PBoard)
    (hflag : ∀ q, inRange n q → (((e q).alive = true) ↔ β q = 1)) (p : Pos)
    (hp : inRange n p) : liveNb n e p = naive_neighbor_count n β p := by
  unfold liveNb naive_neighbor_count
  congr 1
  apply List.map_congr_left
  intro q hq
  have hqr := nbrListW_inRange hn p q hq
  by_cases ha : (e q).alive = true
  · rw [if_pos ha, if_pos ((hflag q hqr).mp ha)]
  · rw [if_neg ha, if_neg (fun hb => ha ((hflag q hqr).mpr hb))]

/-- The heart of the equivalence proof: when every slice has at least four
rows, one engine generation maps a buffer encoding `β` to a buffer encoding
the naive step of `β`; in particular the neighbor-count invariant is
preserved. -/
lemma engine_gen_correct {t nrows : Nat} (ht : 0 < t) (hdvd : t ∣ nrows)
    (hm4 : 4 ≤ (nrows : Int) / (t : Int)) (e : EBoard) (β : PBoard)
    (henc : encodes (nrows : Int) e β) :
    encodes (nrows : Int) (engine_gen t nrows nrows e)
      (naive_life_step (nrows : Int) β) := by
  have hm2 : 2 ≤ (nrows : Int) / (t : Int) := by omega
  have hn : 0 < (nrows : Int) := size_pos_of_slices ht hdvd hm2
  have hflag : ∀ q, inRange (nrows : Int) q → (((e q).alive = true) ↔ β q = 1) :=
    fun q hq => (henc q hq).1
  have hcnt : ∀ q, inRange (nrows : Int) q → (e q).count = liveNb (nrows : Int) e q :=
    fun q hq => (henc q hq).2
  have hfl : ∀ q, inRange (nrows : Int) q → ((engine_gen t nrows nrows e q).alive =
      if activeKill (e q) = true then false
      else if activeSpawn (e q) = true then true else (e q).alive) := by
    intro q hq
    have hmem := mem_generation_order_of_inRange ht hdvd hm4 hq
    rw [engine_gen, applyCells_alive]
    by_cases hk : activeKill (e q) = true
    · rw [if_pos ⟨hmem, hk⟩, if_pos hk]
    · rw [if_neg (fun hc => hk hc.2), if_neg hk]
      by_cases hs : activeSpawn (e q) = true
      · rw [if_pos ⟨hmem, hs⟩, if_pos hs]
      · rw [if_neg (fun hc => hs hc.2), if_neg hs]
  have hdelta : ∀ q, inRange (nrows : Int) q →
      (if (engine_gen t nrows nrows e q).alive then (1 : Int) else 0) =
        (if (e q).alive then (1 : Int) else 0) + cellDelta (e q) := by
    intro q hq
    unfold cellDelta
    by_cases hk : activeKill (e q) = true
    · have ha := ((activeKill_iff _).mp hk).1
      rw [hfl q hq, if_pos hk, if_pos hk]
      simp [ha]
    · by_cases hs : activeSpawn (e q) = true
      · have ha := ((activeSpawn_iff _).mp hs).1
        rw [hfl q hq, if_neg hk, if_pos hs, if_neg hk, if_pos hs]
        simp [ha]
      · rw [hfl q hq, if_neg hk, if_neg hs, if_neg hk, if_neg hs]
        simp
  have hcnt2 : ∀ p, inRange (nrows : Int) p →
      (engine_gen t nrows nrows e p).count =
        liveNb (nrows : Int) e p +
          ((nbrListW (nrows : Int) p).map (fun q => cellDelta (e q))).sum := by
    intro p hp
    rw [engine_gen, applyCells_count, hcnt p hp]
    congr 1
    calc ((generation_order t nrows nrows).map
          (fun q => cellDelta (e q) * hits (nbrList (nrows : Int) q) p)).sum
        = ((gridList (nrows : Int)).map
          (fun q => cellDelta (e q) * hits (nbrList (nrows : Int) q) p)).sum :=
          sum_over_generation_order ht hdvd hm4 _
      _ = ((gridList (nrows : Int)).map
          (fun q => cellDelta (e q) * hits (nbrListW (nrows : Int) q) p)).sum := by
          apply congrArg
          apply List.map_congr_left
          intro q hq
          rw [nbrList_eq_W (mem_gridList.mp hq)]
      _ = ((nbrListW (nrows : Int) p).map (fun q => cellDelta (e q))).sum :=
          sum_weight hn _ p hp
  intro p hp
  constructor
  · rw [hfl p hp]
    have hc := hcnt p hp
    have hnc : liveNb (nrows : Int) e p = naive_neighbor_count (nrows : Int) β p :=
      liveNb_eq_naiveCount hn e β hflag p hp
    simp only [naive_life_step]
    by_cases hb : β p = 1
    · have ha : (e p).alive = true := (hflag p hp).mpr hb
      rw [if_pos hb]
      by_cases hk : activeKill (e p) = true
      · have h23 := ((activeKill_iff _).mp hk).2
        rw [hc, hnc] at h23
        rw [if_pos hk, if_neg (fun hor => by rcases hor with h | h <;> simp [h] at h23)]
        simp
      · rw [if_neg hk]
        have hs : activeSpawn (e p) = false := by simp [activeSpawn, ALIVE, ha]
        rw [if_neg (by simp [hs])]
        have hnk : ¬((e p).alive = true ∧ (e p).count ≠ 2 ∧ (e p).count ≠ 3) := by
          rw [← activeKill_iff]
          simp [hk]
        have h23 : (e p).count = 2 ∨ (e p).count = 3 := by tauto
        rw [hc, hnc] at h23
        rw [if_pos h23]
        simp [ha]
    · have ha : (e p).alive = false := by
        cases haa : (e p).alive
        · rfl
        · exact absurd ((hflag p hp).mp haa) hb
      have hk : activeKill (e p) = false := by simp [activeKill, ALIVE, ha]
      rw [if_neg hb, if_neg (by simp [hk])]
      by_cases hs : activeSpawn (e p) = true
      · have h3 := ((activeSpawn_iff _).mp hs).2
        rw [hc, hnc] at h3
        rw [if_pos hs, if_pos h3]
        simp
      · rw [if_neg hs]
        have h3 : (e p).count ≠ 3 := fun hcc => by
          simp [activeSpawn, ALIVE, ha, TOSPAWN, hcc] at hs
        rw [hc, hnc] at h3
        rw [if_neg h3]
        simp [ha]
  · rw [hcnt2 p hp]
    unfold liveNb
    have hcg : ∀ q ∈ nbrListW (nrows : Int) p,
        (if (engine_gen t nrows nrows e q).alive then (1 : Int) else 0) =
          (if (e q).alive then (1 : Int) else 0) + cellDelta (e q) :=
      fun q hq => hdelta q (nbrListW_inRange hn p q hq)
    rw [List.map_congr_left hcg, List.sum_map_add]

/-! ### Preprocessing establishes the encoding relation -/

lemma preprocessing_step_eq (size : Int) (bd : EBoard) (p : Pos) :
    preprocessing_step size bd p =
      if ALIVE (bd p) = true then (nbrList size p).foldl N_INC bd else bd := by
  unfold preprocessing_step nbrList
  cases h : ALIVE (bd p) <;> simp [h, List.foldl]

lemma preprocessing_step_alive (size : Int) (bd : EBoard) (p q : Pos) :
    (preprocessing_step size bd p q).alive = (bd q).alive := by
  rw [preprocessing_step_eq]
  by_cases h : ALIVE (bd p) = true
  · rw [if_pos h, foldl_N_INC_alive]
  · rw [if_neg h]

lemma foldl_preprocessing_alive (size : Int) (l : List Pos) (bd : EBoard) (q : Pos) :
    ((l.foldl (preprocessing_step size) bd) q).alive = (bd q).alive := by
  induction l generalizing bd with
  | nil => rfl
  | cons p l ih => rw [List.foldl_cons, ih, preprocessing_step_alive]

lemma foldl_preprocessing_count (size : Int) (l : List Pos) (bd : EBoard) (q : Pos) :
    ((l.foldl (preprocessing_step size) bd) q).count =
      (bd q).count +
        (l.map (fun p => (if (bd p).alive then (1 : Int) else 0) *
          hits (nbrList size p) q)).sum := by
  induction l generalizing bd with
  | nil => simp
  | cons p l ih =>
    rw [List.foldl_cons, ih, List.map_cons, List.sum_cons]
    have hw : ∀ r ∈ l, (if (preprocessing_step size bd p r).alive then (1 : Int) else 0) *
        hits (nbrList size r) q =
        (if (bd r).alive then (1 : Int) else 0) * hits (nbrList size r) q := by
      intro r _
      rw [preprocessing_step_alive]
    rw [List.map_congr_left hw]
    rw [preprocessing_step_eq]
    by_cases h : ALIVE (bd p) = true
    · rw [if_pos h, foldl_N_INC_count]
      have : (bd p).alive = true := h
      rw [if_pos this, one_mul]
      ring
    · rw [if_neg h]
      have : ¬((bd p).alive = true) := h
      rw [if_neg this, zero_mul, zero_add]

lemma encodeCell_count (v : Nat) : (encodeCell v).count = 0 := by
  unfold encodeCell SPAWN
  by_cases h : v = 1 <;> simp [h]

lemma encodeCell_alive (v : Nat) : ((encodeCell v).alive = true) ↔ v = 1 := by
  unfold encodeCell SPAWN
  by_cases h : v = 1 <;> simp [h]

lemma preprocessing_board_alive (b : PBoard) (n : Int) (p : Pos) :
    (((preprocessing_board b n) p).alive = true) ↔ b p = 1 := by
  unfold preprocessing_board
  rw [foldl_preprocessing_alive]
  exact encodeCell_alive (b p)

lemma preprocessing_board_count {n : Int} (hn : 0 < n) (b : PBoard) (p : Pos)
    (hp : inRange n p) :
    ((preprocessing_board b n) p).count = naive_neighbor_count n b p := by
  unfold preprocessing_board
  rw [foldl_preprocessing_count, encodeCell_count, zero_add]
  calc ((gridList n).map (fun q => (if (encodeCell (b q)).alive then (1 : Int) else 0) *
        hits (nbrList n q) p)).sum
      = ((gridList n).map (fun q => (if (encodeCell (b q)).alive then (1 : Int) else 0) *
        hits (nbrListW n q) p)).sum := by
        apply congrArg
        apply List.map_congr_left
        intro q hq
        rw [nbrList_eq_W (mem_gridList.mp hq)]
    _ = ((nbrListW n p).map (fun q => if (encodeCell (b q)).alive then (1 : Int) else 0)).sum :=
        sum_weight hn _ p hp
    _ = naive_neighbor_count n b p := by
        unfold naive_neighbor_count
        apply congrArg
        apply List.map_congr_left
        intro q _
        by_cases h : b q = 1
        · rw [if_pos ((encodeCell_alive _).mpr h), if_pos h]
        · rw [if_neg (fun hc => h ((encodeCell_alive _).mp hc)), if_neg h]

/-- After preprocessing, the encoded buffer represents the plain input board
and the neighbor-count invariant holds. -/
lemma preprocessing_encodes {n : Int} (hn : 0 < n) (b : PBoard) :
    encodes n (preprocessing_board b n) b := by
  intro p hp
  refine ⟨preprocessing_board_alive b n p, ?_⟩
  rw [preprocessing_board_count hn b p hp]
  rw [liveNb_eq_naiveCount hn _ b (fun q _ => preprocessing_board_alive b n q) p hp]

/-- After any number of engine generations the encoded buffer represents the
naive iterate of the plain board. -/
lemma engine_iterate_encodes {t nrows : Nat} (ht : 0 < t) (hdvd : t ∣ nrows)
    (hm4 : 4 ≤ (nrows : Int) / (t : Int)) (b : PBoard) (g : Nat) :
    encodes (nrows : Int)
      ((engine_gen t nrows nrows)^[g] (preprocessing_board b nrows))
      ((naive_life_step (nrows : Int))^[g] b) := by
  have hn : 0 < (nrows : Int) := size_pos_of_slices ht hdvd (by omega)
  induction g with
  | zero => exact preprocessing_encodes hn b
  | succ g ih =>
    rw [Function.iterate_succ_apply', Function.iterate_succ_apply']
    exact engine_gen_correct ht hdvd hm4 _ _ ih

lemma naive_life_step_values (n : Int) (b : PBoard) (p : Pos) :
    naive_life_step n b p = 0 ∨ naive_life_step n b p = 1 := by
  unfold naive_life_step
  by_cases h1 : b p = 1 <;> by_cases h2 : naive_neighbor_count n b p = 2 ∨
    naive_neighbor_count n b p = 3 <;> by_cases h3 : naive_neighbor_count n b p = 3 <;>
    simp [h1, h2, h3] <;> tauto

/-- The parallel engine agrees with the naive recomputation on every in-range
cell, for square boards, an exact slice decomposition, and at least four rows
per slice. -/
lemma parallel_eq_naive {t nrows : Nat} (ht : 0 < t) (hdvd : t ∣ nrows)
    (hm4 : 4 ≤ (nrows : Int) / (t : Int)) (b : PBoard)
    (hb : ∀ p, inRange (nrows : Int) p → b p = 0 ∨ b p = 1) (g : Nat) (p : Pos)
    (hp : inRange (nrows : Int) p) :
    parallel_game_of_life t nrows nrows g b p = naive_game_of_life (nrows : Int) g b p := by
  unfold parallel_game_of_life
  rw [engine_state_eq ht hdvd (by omega) g b]
  have henc := engine_iterate_encodes ht hdvd hm4 b g
  have hiff := (henc p hp).1
  unfold postprocessing_board ALIVE naive_game_of_life
  by_cases ha : ((engine_gen t nrows nrows)^[g] (preprocessing_board b nrows) p).alive = true
  · rw [if_pos ha, (hiff.mp ha).symm]
  · rw [if_neg ha]
    have hne : ¬((naive_life_step (nrows : Int))^[g] b p = 1) := fun hc => ha (hiff.mpr hc)
    cases g with
    | zero =>
      rcases hb p hp with h0 | h1
      · exact h0.symm
      · exact absurd h1 hne
    | succ g =>
      rw [Function.iterate_succ_apply'] at hne ⊢
      rcases naive_life_step_values (nrows : Int) _ p with h0 | h1
      · exact h0.symm
      · exact absurd h1 hne

/-! ### Slices of exactly two rows: the margins coincide and every cell is
transitioned twice per generation -/

lemma worker_slice_rows_two (s : Int) :
    worker_slice_rows 2 s = intRange (s * 2) (s * 2 + 2) ++ intRange (s * 2) (s * 2 + 2) := by
  unfold worker_slice_rows
  have h0 : intRange (s * 2 + 2) (s * 2 + 2 - 2) = [] := intRange_empty (by omega)
  rw [h0, List.append_nil]
  have h1 : s * 2 + 2 - 2 = s * 2 := by ring
  rw [h1]

/-- With two-row slices the generation order visits every in-range cell
exactly twice: summing any function over it doubles the grid sum. -/
lemma sum_over_generation_order_twice {t nrows : Nat} (ht : 0 < t) (hdvd : t ∣ nrows)
    (hm2 : (nrows : Int) / (t : Int) = 2) (F : Pos → Int) :
    ((generation_order t nrows nrows).map F).sum =
      2 * ((gridList (nrows : Int)).map F).sum := by
  have htm : (t : Int) * 2 = (nrows : Int) := by
    have := Int.mul_ediv_cancel' (Int.natCast_dvd_natCast.mpr hdvd)
    rw [hm2] at this
    exact this
  have colSum : ∀ (rows : List Int),
      (((intRange 0 (nrows : Int)).flatMap
        (fun j => rows.map (fun i => ((i, j) : Pos)))).map F).sum =
      (rows.map (fun i => ((intRange 0 (nrows : Int)).map (fun j => F (i, j))).sum)).sum := by
    intro rows
    rw [sum_map_flatMap]
    have h1 : ∀ j ∈ intRange 0 (nrows : Int),
        ((rows.map (fun i => ((i, j) : Pos))).map F).sum =
          (rows.map (fun i => F (i, j))).sum := by
      intro j _
      rw [List.map_map]
      rfl
    rw [List.map_congr_left h1, sum_map_swap]
  unfold generation_order
  rw [hm2, sum_map_flatMap]
  have h2 : ∀ s ∈ intRange 0 (t : Int),
      ((((intRange 0 (nrows : Int)).flatMap
        (fun j => (worker_slice_rows 2 s).map (fun i => ((i, j) : Pos)))).map F).sum) =
      2 * ((intRange (s * 2) (s * 2 + 2)).map
        (fun i => ((intRange 0 (nrows : Int)).map (fun j => F (i, j))).sum)).sum := by
    intro s _
    rw [colSum, worker_slice_rows_two, List.map_append, List.sum_append]
    ring
  rw [List.map_congr_left h2]
  have h3 : ((intRange 0 (t : Int)).map (fun s =>
      2 * ((intRange (s * 2) (s * 2 + 2)).map
        (fun i => ((intRange 0 (nrows : Int)).map (fun j => F (i, j))).sum)).sum)).sum =
      2 * ((intRange 0 (t : Int)).map (fun s =>
        ((intRange (s * 2) (s * 2 + 2)).map
          (fun i => ((intRange 0 (nrows : Int)).map (fun j => F (i, j))).sum)).sum)).sum := by
    rw [List.sum_map_mul_left]
  rw [h3, ← sum_map_flatMap, flatMap_intRange_slices 2 (by omega) t, htm]
  congr 1
  unfold gridList
  rw [sum_map_flatMap]
  have h4 : ∀ i ∈ intRange 0 (nrows : Int),
      (((intRange 0 (nrows : Int)).map (fun j => ((i, j) : Pos))).map F).sum =
        ((intRange 0 (nrows : Int)).map (fun j => F (i, j))).sum := by
    intro i _
    rw [List.map_map]
    rfl
  rw [List.map_congr_left h4]

lemma hits_generation_order_twice {t nrows : Nat} (ht : 0 < t) (hdvd : t ∣ nrows)
    (hm2 : (nrows : Int) / (t : Int) = 2) (p : Pos) :
    hits (generation_order t nrows nrows) p =
      if inRange (nrows : Int) p then 2 else 0 := by
  rw [hits, sum_over_generation_order_twice ht hdvd hm2, ← hits, hits_gridList]
  by_cases h : inRange (nrows : Int) p <;> simp [h]

lemma mem_generation_order_twice {t nrows : Nat} (ht : 0 < t) (hdvd : t ∣ nrows)
    (hm2 : (nrows : Int) / (t : Int) = 2) {p : Pos} (hp : inRange (nrows : Int) p) :
    p ∈ generation_order t nrows nrows := by
  by_contra hc
  have := (hits_eq_zero_iff _ _).mpr hc
  rw [hits_generation_order_twice ht hdvd hm2, if_pos hp] at this
  omega

/-- The count field after one two-row-slice generation: the closed form, with
every delta applied twice. -/
lemma engine_gen_count_twice {t nrows : Nat} (ht : 0 < t) (hdvd : t ∣ nrows)
    (hm2 : (nrows : Int) / (t : Int) = 2) (hn : 0 < (nrows : Int)) (e : EBoard) (p : Pos)
    (hp : inRange (nrows : Int) p) :
    (engine_gen t nrows nrows e p).count =
      (e p).count + 2 * ((nbrListW (nrows : Int) p).map (fun q => cellDelta (e q))).sum := by
  rw [engine_gen, applyCells_count]
  congr 1
  calc ((generation_order t nrows nrows).map
        (fun q => cellDelta (e q) * hits (nbrList (nrows : Int) q) p)).sum
      = 2 * ((gridList (nrows : Int)).map
        (fun q => cellDelta (e q) * hits (nbrList (nrows : Int) q) p)).sum :=
        sum_over_generation_order_twice ht hdvd hm2 _
    _ = 2 * ((gridList (nrows : Int)).map
        (fun q => cellDelta (e q) * hits (nbrListW (nrows : Int) q) p)).sum := by
        congr 1
        apply congrArg
        apply List.map_congr_left
        intro q hq
        rw [nbrList_eq_W (mem_gridList.mp hq)]
    _ = 2 * ((nbrListW (nrows : Int) p).map (fun q => cellDelta (e q))).sum := by
        rw [sum_weight hn _ p hp]

/-! ### Concrete boards for witnesses and counterexamples -/

/-- The all-dead plain board. -/
def dead_board : PBoard := fun _ => 0

/-- The all-dead encoded buffer. -/
def deadE : EBoard := fun _ => { alive := false, count := 0 }

/-- A three-cell horizontal blinker in row 1, columns 0 to 2. -/
def blinker4 : PBoard := fun p => if p = (1, 0) ∨ p = (1, 1) ∨ p = (1, 2) then 1 else 0

/-- The same blinker, used on the 32 by 32 board. -/
def blinker32 : PBoard := fun p => if p = (1, 0) ∨ p = (1, 1) ∨ p = (1, 2) then 1 else 0

lemma blinker4_values (p : Pos) : blinker4 p = 0 ∨ blinker4 p = 1 := by
  unfold blinker4
  by_cases h : p = (1, 0) ∨ p = (1, 1) ∨ p = (1, 2)
  · rw [if_pos h]; right; rfl
  · rw [if_neg h]; left; rfl

lemma blinker32_values (p : Pos) : blinker32 p = 0 ∨ blinker32 p = 1 := by
  unfold blinker32
  by_cases h : p = (1, 0) ∨ p = (1, 1) ∨ p = (1, 2)
  · rw [if_pos h]; right; rfl
  · rw [if_neg h]; left; rfl

/-- Preprocessed cells of the 32 by 32 blinker, in closed form. -/
lemma blinker32_pre_spec (q : Pos) (hq : inRange (32 : Int) q) :
    preprocessing_board blinker32 32 q =
      { alive := if blinker32 q = 1 then true else false,
        count := naive_neighbor_count 32 blinker32 q } := by
  apply cell_ext
  · by_cases h : blinker32 q = 1
    · rw [(preprocessing_board_alive blinker32 32 q).mpr h, if_pos h]
    · cases hA : (preprocessing_board blinker32 32 q).alive
      · rw [if_neg h]
      · exact absurd ((preprocessing_board_alive blinker32 32 q).mp hA) h
  · exact preprocessing_board_count (by decide) blinker32 q hq

lemma blinker32_pre_10 : preprocessing_board blinker32 32 (1, 0) =
    { alive := true, count := 1 } := by
  rw [blinker32_pre_spec (1, 0) (by decide)]
  decide

lemma blinker32_pre_nbrs :
    preprocessing_board blinker32 32 (0, 31) = { alive := false, count := 1 } ∧
    preprocessing_board blinker32 32 (0, 0) = { alive := false, count := 2 } ∧
    preprocessing_board blinker32 32 (0, 1) = { alive := false, count := 3 } ∧
    preprocessing_board blinker32 32 (1, 31) = { alive := false, count := 1 } ∧
    preprocessing_board blinker32 32 (1, 1) = { alive := true, count := 2 } ∧
    preprocessing_board blinker32 32 (2, 31) = { alive := false, count := 1 } ∧
    preprocessing_board blinker32 32 (2, 0) = { alive := false, count := 2 } ∧
    preprocessing_board blinker32 32 (2, 1) = { alive := false, count := 3 } := by
  refine ⟨?_, ?_, ?_, ?_, ?_, ?_, ?_, ?_⟩ <;>
    rw [blinker32_pre_spec _ (by decide)] <;> decide

/-- One cons step of the weighted-delta sum, with the beta reduction folded
into the statement so instantiating it never leaves a redex in the goal. -/
lemma delta_map_sum_cons (x : Pos) (l : List Pos) :
    ((x :: l).map (fun q => cellDelta (preprocessing_board blinker32 32 q))).sum =
      cellDelta (preprocessing_board blinker32 32 x) +
        (l.map (fun q => cellDelta (preprocessing_board blinker32 32 q))).sum := by
  rw [List.map_cons, List.sum_cons]

lemma delta_map_sum_nil :
    (([] : List Pos).map (fun q => cellDelta (preprocessing_board blinker32 32 q))).sum
      = 0 := rfl

lemma blinker32_delta_sum :
    ((nbrListW (32 : Int) (1, 0)).map
      (fun q => cellDelta (preprocessing_board blinker32 32 q))).sum = 2 := by
  have hl : nbrListW (32 : Int) (1, 0) =
      [(0, 31), (0, 0), (0, 1), (1, 31), (1, 1), (2, 31), (2, 0), (2, 1)] := by decide
  obtain ⟨h1, h2, h3, h4, h5, h6, h7, h8⟩ := blinker32_pre_nbrs
  rw [hl, delta_map_sum_cons, delta_map_sum_cons, delta_map_sum_cons, delta_map_sum_cons,
    delta_map_sum_cons, delta_map_sum_cons, delta_map_sum_cons, delta_map_sum_cons,
    delta_map_sum_nil]
  rw [h1, h2, h3, h4, h5, h6, h7, h8]
  decide

lemma blinker32_gen1_10 :
    engine_gen 16 32 32 (preprocessing_board blinker32 32) (1, 0) =
      { alive := false, count := 5 } := by
  have ht : 0 < (16 : Nat) := by decide
  have hdvd : (16 : Nat) ∣ 32 := by decide
  have hm2 : (32 : Int) / (16 : Int) = 2 := by decide
  have hp : inRange (32 : Int) (1, 0) := by decide
  apply cell_ext
  · rw [engine_gen, applyCells_alive]
    have hmem := mem_generation_order_twice ht hdvd hm2 hp
    have hk : activeKill (preprocessing_board blinker32 32 (1, 0)) = true := by
      rw [blinker32_pre_10]; decide
    rw [if_pos ⟨hmem, hk⟩]
  · rw [engine_gen_count_twice ht hdvd hm2 (by decide) _ _ hp]
    push_cast
    rw [blinker32_delta_sum, blinker32_pre_10]
    decide

lemma blinker32_gen2_10_alive :
    (engine_gen 16 32 32 (engine_gen 16 32 32 (preprocessing_board blinker32 32))
      (1, 0)).alive = false := by
  have ht : 0 < (16 : Nat) := by decide
  have hdvd : (16 : Nat) ∣ 32 := by decide
  have hm2 : (32 : Int) / (16 : Int) = 2 := by decide
  rw [engine_gen, applyCells_alive]
  have hk : ¬((1, 0) ∈ generation_order 16 32 32 ∧
      activeKill (engine_gen 16 32 32 (preprocessing_board blinker32 32) (1, 0)) = true) := by
    intro hc
    have := hc.2
    rw [blinker32_gen1_10] at this
    exact absurd this (by decide)
  have hs : ¬((1, 0) ∈ generation_order 16 32 32 ∧
      activeSpawn (engine_gen 16 32 32 (preprocessing_board blinker32 32) (1, 0)) = true) := by
    intro hc
    have := hc.2
    rw [blinker32_gen1_10] at this
    exact absurd this (by decide)
  rw [if_neg hk, if_neg hs, blinker32_gen1_10]

lemma postprocessing_board_apply (bd : EBoard) (r c : Int) (p : Pos) :
    postprocessing_board bd r c p = if (bd p).alive = true then 1 else 0 := rfl

/-! ### Claim theorems -/

/-- C1 (amended): for every square plain 0/1 board of size `n` with
`32 ≤ n ≤ 10000`, `n` evenly divisible by the thread count, and — as the
counterexample below forces — at least four rows per slice
(`4 ≤ n / NUM_THREADS`), and for every `gens_max ≥ 0`, the board returned by
`game_of_life` equals the naive per-generation recomputation of Conway's Game
of Life (full 8-neighbor sum, toroidal wraparound) applied `gens_max` times
to the input board. -/
theorem game_of_life_matches_naive (t nrows gens_max : Nat) (b : PBoard)
    (h32 : 32 ≤ nrows) (h10k : nrows ≤ 10000) (ht : 0 < t) (hdvd : t ∣ nrows)
    (hm4 : 4 ≤ (nrows : Int) / (t : Int))
    (hb : ∀ p, inRange (nrows : Int) p → b p = 0 ∨ b p = 1) :
    game_of_life t nrows nrows gens_max b =
      some (parallel_game_of_life t nrows nrows gens_max b) ∧
    ∀ p, inRange (nrows : Int) p →
      parallel_game_of_life t nrows nrows gens_max b p =
        naive_game_of_life (nrows : Int) gens_max b p := by
  constructor
  · unfold game_of_life
    rw [if_neg (by omega), if_neg (by omega)]
  · exact fun p hp => parallel_eq_naive ht hdvd hm4 b hb gens_max p hp

theorem game_of_life_matches_naive_witness :
    (32 ≤ (32 : Nat) ∧ (32 : Nat) ≤ 10000 ∧ 0 < (8 : Nat) ∧ (8 : Nat) ∣ 32 ∧
      4 ≤ (32 : Int) / (8 : Int) ∧
      (∀ p, inRange ((32 : Nat) : Int) p → dead_board p = 0 ∨ dead_board p = 1)) ∧
    (game_of_life 8 32 32 3 dead_board =
      some (parallel_game_of_life 8 32 32 3 dead_board) ∧
    ∀ p, inRange ((32 : Nat) : Int) p →
      parallel_game_of_life 8 32 32 3 dead_board p =
        naive_game_of_life ((32 : Nat) : Int) 3 dead_board p) :=
  ⟨⟨by decide, by decide, by decide, by decide, by decide, fun p _ => Or.inl rfl⟩,
    game_of_life_matches_naive 8 32 3 dead_board (by decide) (by decide) (by decide)
      (by decide) (by decide) (fun p _ => Or.inl rfl)⟩

/-- C1 counterexample: the claim as stated fails.  With `n = 32`,
`NUM_THREADS = 16` (which divides 32), and the blinker board, every slice has
two rows, the two locked margins coincide, every cell transition is applied
twice per generation, and after two generations the engine disagrees with
the naive recomputation at cell `(1, 0)`: the engine leaves it dead while the
blinker oscillates back to alive. -/
theorem game_of_life_matches_naive_cex :
    32 ≤ (32 : Nat) ∧ (32 : Nat) ≤ 10000 ∧ 0 < (16 : Nat) ∧ (16 : Nat) ∣ 32 ∧
    (∀ p, blinker32 p = 0 ∨ blinker32 p = 1) ∧
    inRange (32 : Int) (1, 0) ∧
    game_of_life 16 32 32 2 blinker32 =
      some (parallel_game_of_life 16 32 32 2 blinker32) ∧
    parallel_game_of_life 16 32 32 2 blinker32 (1, 0) = 0 ∧
    naive_game_of_life (32 : Int) 2 blinker32 (1, 0) = 1 := by
  refine ⟨by decide, by decide, by decide, by decide, blinker32_values, by decide, ?_, ?_, ?_⟩
  · unfold game_of_life
    rw [if_neg (by omega), if_neg (by omega)]
  · have hboard : (engine_state 16 32 32 2 blinker32).2 =
        engine_gen 16 32 32 (engine_gen 16 32 32 (preprocessing_board blinker32 32)) := by
      rw [engine_state_eq (by decide) (by decide) (by decide) 2 blinker32,
        Function.iterate_succ_apply', Function.iterate_one]
      push_cast
      rfl
    unfold parallel_game_of_life
    rw [hboard, postprocessing_board_apply, blinker32_gen2_10_alive]
    rfl
  · decide

/-- C2 counterexample: the claim as stated fails for small row counts.  With
`nrows = 5` and `ncols = 10001` the oversized column count is never checked,
because the dispatcher tests `nrows < 32` first and delegates to the
sequential fallback, returning a non-null board. -/
theorem game_of_life_null_cex :
    10000 < (10001 : Nat) ∧ game_of_life 8 5 10001 1 dead_board ≠ none := by
  constructor
  · decide
  · unfold game_of_life
    rw [if_pos (by omega)]
    exact fun h => Option.noConfusion h

/-- C2 (amended): `game_of_life` returns a null result exactly when
`nrows ≥ 32` (so the sequential fallback is not taken) and `nrows > 10000` or
`ncols > 10000`. -/
theorem game_of_life_null_iff (t nrows ncols gens_max : Nat) (b : PBoard) :
    game_of_life t nrows ncols gens_max b = none ↔
      32 ≤ nrows ∧ (10000 < nrows ∨ 10000 < ncols) := by
  unfold game_of_life
  by_cases h1 : nrows < 32
  · rw [if_pos h1]
    constructor
    · intro h; exact Option.noConfusion h
    · intro ⟨h, _⟩; omega
  · rw [if_neg h1]
    by_cases h2 : 10000 < nrows ∨ 10000 < ncols
    · rw [if_pos h2]
      exact ⟨fun _ => ⟨by omega, h2⟩, fun _ => rfl⟩
    · rw [if_neg h2]
      constructor
      · intro h; exact Option.noConfusion h
      · intro ⟨_, hc⟩; exact absurd hc h2

/-- C3 counterexample: the invariant is not preserved by the engine as built.
On the 4 by 4 blinker with 2 threads (two-row slices, an exact divisor), after
one completed generation the count field of cell `(1, 0)` is 5 while it has
exactly 3 alive toroidal neighbors. -/
theorem neighbor_count_invariant_cex :
    0 < (2 : Nat) ∧ (2 : Nat) ∣ 4 ∧ (∀ p, blinker4 p = 0 ∨ blinker4 p = 1) ∧
    inRange (4 : Int) (1, 0) ∧
    ((engine_state 2 4 4 1 blinker4).2 (1, 0)).count = 5 ∧
    liveNb 4 (engine_state 2 4 4 1 blinker4).2 (1, 0) = 3 :=
  ⟨by decide, by decide, blinker4_values, by decide, by decide, by decide⟩

/-- C3 (amended): for every plain 0/1 board, immediately after
`preprocessing_board` the neighbor-count field of every cell equals the exact
number of alive toroidal neighbors of that cell in the plain board, and —
with the slice-size proviso the counterexample forces, at least four rows per
slice — the count field equals the exact number of alive toroidal neighbors
of the current encoded buffer after every completed generation. -/
theorem neighbor_count_invariant (t nrows g : Nat) (b : PBoard)
    (ht : 0 < t) (hdvd : t ∣ nrows) (hm4 : 4 ≤ (nrows : Int) / (t : Int))
    (hb : ∀ p, inRange (nrows : Int) p → b p = 0 ∨ b p = 1) :
    (∀ p, inRange (nrows : Int) p →
      ((preprocessing_board b nrows) p).count = naive_neighbor_count (nrows : Int) b p) ∧
    (∀ p, inRange (nrows : Int) p →
      ((engine_state t nrows nrows g b).2 p).count =
        liveNb (nrows : Int) (engine_state t nrows nrows g b).2 p) := by
  have hn : 0 < (nrows : Int) := size_pos_of_slices ht hdvd (by omega)
  constructor
  · exact fun p hp => preprocessing_board_count hn b p hp
  · intro p hp
    rw [engine_state_eq ht hdvd (by omega) g b]
    exact ((engine_iterate_encodes ht hdvd hm4 b g) p hp).2

theorem neighbor_count_invariant_witness :
    (0 < (8 : Nat) ∧ (8 : Nat) ∣ 32 ∧ 4 ≤ (32 : Int) / (8 : Int) ∧
      (∀ p, inRange ((32 : Nat) : Int) p → dead_board p = 0 ∨ dead_board p = 1)) ∧
    ((∀ p, inRange ((32 : Nat) : Int) p →
      ((preprocessing_board dead_board 32) p).count =
        naive_neighbor_count ((32 : Nat) : Int) dead_board p) ∧
    (∀ p, inRange ((32 : Nat) : Int) p →
      ((engine_state 8 32 32 2 dead_board).2 p).count =
        liveNb ((32 : Nat) : Int) (engine_state 8 32 32 2 dead_board).2 p)) :=
  ⟨⟨by decide, by decide, by decide, fun p _ => Or.inl rfl⟩,
    neighbor_count_invariant 8 32 2 dead_board (by decide) (by decide) (by decide)
      (fun p _ => Or.inl rfl)⟩

/-- C5: decoding after encoding is the identity on every cell of the board:
`postprocessing_board` applied to the result of `preprocessing_board` (with
zero generations in between) returns the original plain 0/1 board. -/
theorem decode_encode_roundtrip (b : PBoard) (n : Int)
    (hb : ∀ p, inRange n p → b p = 0 ∨ b p = 1) :
    ∀ p, inRange n p → postprocessing_board (preprocessing_board b n) n n p = b p := by
  intro p hp
  rw [postprocessing_board_apply]
  by_cases h : ((preprocessing_board b n) p).alive = true
  · rw [if_pos h, (preprocessing_board_alive b n p).mp h]
  · rw [if_neg h]
    rcases hb p hp with h0 | h1
    · rw [h0]
    · exact absurd ((preprocessing_board_alive b n p).mpr h1) h

theorem decode_encode_roundtrip_witness :
    (∀ p, inRange (4 : Int) p → blinker4 p = 0 ∨ blinker4 p = 1) ∧
    (∀ p, inRange (4 : Int) p →
      postprocessing_board (preprocessing_board blinker4 4) 4 4 p = blinker4 p) :=
  ⟨fun p _ => blinker4_values p,
    decode_encode_roundtrip blinker4 4 (fun p _ => blinker4_values p)⟩

/-- The decoded engine output, characterized through the naive iterate: the
final plain cell is 1 exactly when the naive recomputation makes it alive. -/
lemma parallel_decode_char {t nrows : Nat} (ht : 0 < t) (hdvd : t ∣ nrows)
    (hm4 : 4 ≤ (nrows : Int) / (t : Int)) (b : PBoard) (g : Nat) (p : Pos)
    (hp : inRange (nrows : Int) p) :
    parallel_game_of_life t nrows nrows g b p =
      if (naive_life_step (nrows : Int))^[g] b p = 1 then 1 else 0 := by
  unfold parallel_game_of_life
  rw [engine_state_eq ht hdvd (by omega) g b, postprocessing_board_apply]
  have hiff := ((engine_iterate_encodes ht hdvd hm4 b g) p hp).1
  show (if (((engine_gen t nrows nrows)^[g] (preprocessing_board b (nrows : Int))) p).alive =
    true then 1 else 0) = _
  by_cases h : (((engine_gen t nrows nrows)^[g] (preprocessing_board b (nrows : Int))) p).alive
    = true
  · rw [if_pos h, if_pos (hiff.mp h)]
  · rw [if_neg h, if_neg (fun hc => h (hiff.mpr hc))]

/-- C6 counterexample: the engine result depends on the thread count.  On the
4 by 4 blinker after two generations, one thread (four-row slice) leaves cell
`(1, 0)` alive while two threads (two-row slices, also an exact divisor)
leave it dead. -/
theorem thread_count_independence_cex :
    0 < (1 : Nat) ∧ 0 < (2 : Nat) ∧ (1 : Nat) ∣ 4 ∧ (2 : Nat) ∣ 4 ∧
    parallel_game_of_life 1 4 4 2 blinker4 (1, 0) = 1 ∧
    parallel_game_of_life 2 4 4 2 blinker4 (1, 0) = 0 :=
  ⟨by decide, by decide, by decide, by decide, by decide, by decide⟩

/-- C6 (amended): for a fixed input board and generation count, the plain
board produced by the engine is the same for all thread counts that evenly
divide the row count and — as the counterexample forces — leave at least four
rows per slice. -/
theorem thread_count_independence (t₁ t₂ nrows gens_max : Nat) (b : PBoard)
    (ht₁ : 0 < t₁) (hdvd₁ : t₁ ∣ nrows) (hm₁ : 4 ≤ (nrows : Int) / (t₁ : Int))
    (ht₂ : 0 < t₂) (hdvd₂ : t₂ ∣ nrows) (hm₂ : 4 ≤ (nrows : Int) / (t₂ : Int)) :
    ∀ p, inRange (nrows : Int) p →
      parallel_game_of_life t₁ nrows nrows gens_max b p =
        parallel_game_of_life t₂ nrows nrows gens_max b p := by
  intro p hp
  rw [parallel_decode_char ht₁ hdvd₁ hm₁ b gens_max p hp,
    parallel_decode_char ht₂ hdvd₂ hm₂ b gens_max p hp]

theorem thread_count_independence_witness :
    (0 < (4 : Nat) ∧ (4 : Nat) ∣ 32 ∧ 4 ≤ (32 : Int) / (4 : Int) ∧
      0 < (8 : Nat) ∧ (8 : Nat) ∣ 32 ∧ 4 ≤ (32 : Int) / (8 : Int)) ∧
    (∀ p, inRange ((32 : Nat) : Int) p →
      parallel_game_of_life 4 32 32 2 blinker32 p =
        parallel_game_of_life 8 32 32 2 blinker32 p) :=
  ⟨⟨by decide, by decide, by decide, by decide, by decide, by decide⟩,
    thread_count_independence 4 8 32 2 blinker32 (by decide) (by decide) (by decide)
      (by decide) (by decide) (by decide)⟩

lemma preprocessing_dead (n : Int) : preprocessing_board dead_board n = deadE := by
  funext p
  apply cell_ext
  · unfold preprocessing_board
    rw [foldl_preprocessing_alive]
    rfl
  · unfold preprocessing_board
    rw [foldl_preprocessing_count]
    have hz : ((gridList n).map (fun q =>
        (if ((fun p => encodeCell (dead_board p)) q).alive then (1 : Int) else 0) *
          hits (nbrList n q) p)).sum = 0 := by
      rw [List.sum_eq_zero]
      intro y hy
      rcases List.mem_map.mp hy with ⟨q, _, rfl⟩
      show (if (encodeCell (dead_board q)).alive then (1 : Int) else 0) * _ = 0
      rw [show (encodeCell (dead_board q)).alive = false from rfl]
      simp
    rw [hz]
    simp [deadE, encodeCell, dead_board]

lemma do_cell_deadE (out : EBoard) (i j n : Int) : do_cell out deadE i j n = out := by
  rw [do_cell_eq]
  have hk : activeKill (deadE (i, j)) = false := rfl
  have hs : activeSpawn (deadE (i, j)) = false := rfl
  rw [if_neg (fun hc => by rw [hk] at hc; exact Bool.false_ne_true hc),
    if_neg (fun hc => by rw [hs] at hc; exact Bool.false_ne_true hc)]

lemma applyCells_deadE (l : List Pos) (n : Int) : applyCells deadE deadE l n = deadE := by
  induction l with
  | nil => rfl
  | cons p l ih => rw [applyCells_cons, do_cell_deadE, ih]

lemma one_generation_deadE (t nrows ncols : Nat) :
    one_generation t nrows ncols (deadE, deadE) = (deadE, deadE) := by
  have hout : (one_generation t nrows ncols (deadE, deadE)).2 = deadE := by
    rw [one_generation_out]
    exact applyCells_deadE _ _
  refine Prod.ext ?_ hout
  funext p
  show (if 0 ≤ p.1 ∧ p.1 < (t : Int) * ((nrows : Int) / (t : Int)) then
      (one_generation t nrows ncols (deadE, deadE)).2 p else deadE p) = deadE p
  rw [hout, ite_self]

lemma engine_state_deadE (t nrows ncols g : Nat) :
    engine_state t nrows ncols g dead_board = (deadE, deadE) := by
  unfold engine_state
  rw [preprocessing_dead]
  induction g with
  | zero => rfl
  | succ g ih => rw [Function.iterate_succ_apply', ih, one_generation_deadE]

/-- C8: a board with no live cells stays dead: for any thread count, board
size within the accepted range, and number of generations, every cell of the
result of `parallel_game_of_life` on the all-zero board is 0. -/
theorem dead_board_stays_dead (t nrows ncols gens_max : Nat)
    (h32 : 32 ≤ nrows) (h10k : nrows ≤ 10000) :
    ∀ p, parallel_game_of_life t nrows ncols gens_max dead_board p = 0 := by
  intro p
  unfold parallel_game_of_life
  rw [engine_state_deadE, postprocessing_board_apply]
  rfl

theorem dead_board_stays_dead_witness :
    (32 ≤ (32 : Nat) ∧ (32 : Nat) ≤ 10000) ∧
    ∀ p, parallel_game_of_life 8 32 32 5 dead_board p = 0 :=
  ⟨⟨by decide, by decide⟩, dead_board_stays_dead 8 32 32 5 (by decide) (by decide)⟩

/-- C9: the boundary handling in the worker (the inline ALIVE and TOKILL and
TOSPAWN tests guarding `kill_cell` and `spawn_cell`) computes exactly the same
board update as `do_cell` at the same position. -/
theorem boundary_update_matches_do_cell (outboard inboard : EBoard) (i j size : Int) :
    boundary_update outboard inboard i j size = do_cell outboard inboard i j size :=
  boundary_update_eq_do_cell outboard inboard i j size

/-- C10: with slice size m at least 1, each worker's three row loops cover
exactly the rows of its slice, each once, if and only if m >= 4; for m < 4
some row of the slice is processed at least twice. -/
theorem worker_slice_rows_coverage (m s : Int) (hm : 1 ≤ m) :
    ((∀ r : Int, s * m ≤ r → r < s * m + m → (worker_slice_rows m s).count r = 1) ↔ 4 ≤ m) ∧
    (m < 4 → ∃ r : Int, s * m ≤ r ∧ r < s * m + m ∧ 2 ≤ (worker_slice_rows m s).count r) := by
  have hc : ∀ r : Int, (worker_slice_rows m s).count r =
      ((if s * m ≤ r ∧ r < s * m + 2 then 1 else 0) +
       (if s * m + 2 ≤ r ∧ r < s * m + m - 2 then 1 else 0)) +
      (if s * m + m - 2 ≤ r ∧ r < s * m + m then 1 else 0) := by
    intro r
    unfold worker_slice_rows
    rw [List.count_append, List.count_append, count_intRange, count_intRange, count_intRange]
  constructor
  · constructor
    · intro hcov
      by_contra h4
      have hm123 : m = 1 ∨ m = 2 ∨ m = 3 := by omega
      rcases hm123 with rfl | rfl | rfl
      · have hb := hcov (s * 1) (by omega) (by omega)
        rw [hc] at hb
        split_ifs at hb <;> omega
      · have hb := hcov (s * 2) (by omega) (by omega)
        rw [hc] at hb
        split_ifs at hb <;> omega
      · have hb := hcov (s * 3 + 1) (by omega) (by omega)
        rw [hc] at hb
        split_ifs at hb <;> omega
    · intro h4 r hr1 hr2
      rw [hc]
      split_ifs <;> omega
  · intro h4
    have hm123 : m = 1 ∨ m = 2 ∨ m = 3 := by omega
    rcases hm123 with rfl | rfl | rfl
    · refine ⟨s * 1, by omega, by omega, ?_⟩
      rw [hc]
      split_ifs <;> omega
    · refine ⟨s * 2, by omega, by omega, ?_⟩
      rw [hc]
      split_ifs <;> omega
    · refine ⟨s * 3 + 1, by omega, by omega, ?_⟩
      rw [hc]
      split_ifs <;> omega

theorem worker_slice_rows_coverage_witness :
    1 ≤ (4 : Int) ∧
    (((∀ r : Int, 0 * 4 ≤ r → r < 0 * 4 + 4 → (worker_slice_rows 4 0).count r = 1) ↔
        4 ≤ (4 : Int)) ∧
      ((4 : Int) < 4 → ∃ r : Int, 0 * 4 ≤ r ∧ r < 0 * 4 + 4 ∧
        2 ≤ (worker_slice_rows 4 0).count r)) :=
  ⟨by decide, worker_slice_rows_coverage 4 0 (by decide)⟩

/-- Wrapped shifts by offsets of magnitude at most 1 are injective once the
board has at least 3 rows and columns. -/
lemma mod_shift_inj {n x a b : Int} (hn : 3 ≤ n) (ha1 : -1 ≤ a) (ha2 : a ≤ 1)
    (hb1 : -1 ≤ b) (hb2 : b ≤ 1) (h : mod (x + a) n = mod (x + b) n) : a = b := by
  unfold mod at h
  have hd : n ∣ a - b := by
    have h0 : ((x + a) - (x + b)) % n = 0 := by
      rw [Int.sub_emod, h, sub_self, Int.zero_emod]
    have he : (x + a) - (x + b) = a - b := by ring
    rw [he] at h0
    exact Int.dvd_of_emod_eq_zero h0
  rcases hd with ⟨k, hk⟩
  have hk0 : k = 0 := by
    rcases lt_trichotomy k 0 with hlt | h0 | hgt
    · exfalso
      have h1 : k ≤ -1 := by omega
      have h2 : n * k ≤ n * (-1) := mul_le_mul_of_nonneg_left h1 (by linarith)
      linarith
    · exact h0
    · exfalso
      have h1 : 1 ≤ k := by omega
      have h2 : n * 1 ≤ n * k := mul_le_mul_of_nonneg_left h1 (by linarith)
      linarith
  rw [hk0, mul_zero] at hk
  omega

/-- For boards of size at least 3 the eight toroidal neighbors are pairwise
distinct. -/
lemma nbrListW_nodup {n : Int} (hn : 3 ≤ n) (p : Pos) : (nbrListW n p).Nodup := by
  unfold nbrListW
  refine List.Nodup.map_on ?_ (by decide)
  intro d hd d' hd' he
  have hoff : ∀ e ∈ offsets, -1 ≤ e.1 ∧ e.1 ≤ 1 ∧ -1 ≤ e.2 ∧ e.2 ≤ 1 := by decide
  obtain ⟨ha1, ha2, ha3, ha4⟩ := hoff d hd
  obtain ⟨hc1, hc2, hc3, hc4⟩ := hoff d' hd'
  have h1 := congrArg Prod.fst he
  have h2 := congrArg Prod.snd he
  exact Prod.ext (mod_shift_inj hn ha1 ha2 hc1 hc2 h1) (mod_shift_inj hn ha3 ha4 hc3 hc4 h2)

/-- For boards of size at least 3 a cell is never its own toroidal
neighbor. -/
lemma self_not_mem_nbrListW {n : Int} (hn : 3 ≤ n) {p : Pos} (hp : inRange n p) :
    p ∉ nbrListW n p := by
  intro hmem
  unfold nbrListW at hmem
  rcases List.mem_map.mp hmem with ⟨d, hd, he⟩
  obtain ⟨hp1, hp2, hp3, hp4⟩ := hp
  have hoff : ∀ e ∈ offsets, -1 ≤ e.1 ∧ e.1 ≤ 1 ∧ -1 ≤ e.2 ∧ e.2 ≤ 1 := by decide
  obtain ⟨ha1, ha2, ha3, ha4⟩ := hoff d hd
  have h1 := congrArg Prod.fst he
  have h2 := congrArg Prod.snd he
  have hz1 : mod (p.1 + 0) n = p.1 := by rw [add_zero]; exact mod_eq_self hp1 hp2
  have hz2 : mod (p.2 + 0) n = p.2 := by rw [add_zero]; exact mod_eq_self hp3 hp4
  have e1 : d.1 = 0 := mod_shift_inj hn ha1 ha2 (by omega) (by omega) (h1.trans hz1.symm)
  have e2 : d.2 = 0 := mod_shift_inj hn ha3 ha4 (by omega) (by omega) (h2.trans hz2.symm)
  have hd0 : d = ((0 : Int), (0 : Int)) := Prod.ext e1 e2
  rw [hd0] at hd
  exact absurd hd (by decide)

/-- C4: the three-way case split of `do_cell` on a board of size at least 3.
If the current cell is alive with count not 2 and not 3, the next buffer gets
the flag cleared at `(i, j)`, each of the eight toroidal neighbors' counts
decremented by one with flags untouched, and every other cell unchanged; if
the current cell is dead with count exactly 3, the flag is set and the eight
neighbor counts incremented, everything else unchanged; in every other case
the next buffer is completely unchanged. -/
theorem do_cell_cases (outboard inboard : EBoard) (i j n : Int)
    (hn : 3 ≤ n) (hij : inRange n (i, j)) :
    ((inboard (i, j)).alive = true → (inboard (i, j)).count ≠ 2 →
      (inboard (i, j)).count ≠ 3 →
      (do_cell outboard inboard i j n (i, j) =
          { alive := false, count := (outboard (i, j)).count } ∧
        (∀ q ∈ nbrListW n (i, j),
          do_cell outboard inboard i j n q =
            { alive := (outboard q).alive, count := (outboard q).count - 1 }) ∧
        (∀ q, q ≠ (i, j) → q ∉ nbrListW n (i, j) →
          do_cell outboard inboard i j n q = outboard q))) ∧
    ((inboard (i, j)).alive = false → (inboard (i, j)).count = 3 →
      (do_cell outboard inboard i j n (i, j) =
          { alive := true, count := (outboard (i, j)).count } ∧
        (∀ q ∈ nbrListW n (i, j),
          do_cell outboard inboard i j n q =
            { alive := (outboard q).alive, count := (outboard q).count + 1 }) ∧
        (∀ q, q ≠ (i, j) → q ∉ nbrListW n (i, j) →
          do_cell outboard inboard i j n q = outboard q))) ∧
    (activeKill (inboard (i, j)) = false → activeSpawn (inboard (i, j)) = false →
      do_cell outboard inboard i j n = outboard) := by
  have hnod := nbrListW_nodup hn (i, j)
  have hself := self_not_mem_nbrListW hn hij
  have hh0 : hits (nbrList n (i, j)) (i, j) = 0 := by
    rw [nbrList_eq_W hij]
    exact (hits_eq_zero_iff _ _).mpr hself
  refine ⟨?_, ?_, ?_⟩
  · intro h1 h2 h3
    have hk : activeKill (inboard (i, j)) = true := (activeKill_iff _).mpr ⟨h1, h2, h3⟩
    have hdelta : cellDelta (inboard (i, j)) = -1 := by
      unfold cellDelta
      rw [if_pos hk]
    refine ⟨?_, ?_, ?_⟩
    · apply cell_ext
      · rw [do_cell_alive, if_pos ⟨rfl, hk⟩]
      · show _ = (outboard (i, j)).count
        rw [do_cell_count, hh0, mul_zero, add_zero]
    · intro q hq
      have hqne : q ≠ (i, j) := fun hc => hself (hc ▸ hq)
      apply cell_ext
      · show _ = (outboard q).alive
        rw [do_cell_alive, if_neg (fun hc => hqne hc.1), if_neg (fun hc => hqne hc.1)]
      · show _ = (outboard q).count - 1
        rw [do_cell_count, hdelta, nbrList_eq_W hij, hits_nodup _ hnod q, if_pos hq]
        ring
    · intro q hq1 hq2
      apply cell_ext
      · rw [do_cell_alive, if_neg (fun hc => hq1 hc.1), if_neg (fun hc => hq1 hc.1)]
      · rw [do_cell_count, nbrList_eq_W hij, (hits_eq_zero_iff _ _).mpr hq2, mul_zero,
          add_zero]
  · intro h1 h2
    have hs : activeSpawn (inboard (i, j)) = true := (activeSpawn_iff _).mpr ⟨h1, h2⟩
    have hknot : activeKill (inboard (i, j)) = false := by
      simp [activeKill, ALIVE, h1]
    have hdelta : cellDelta (inboard (i, j)) = 1 := by
      unfold cellDelta
      rw [if_neg (fun hc => by rw [hknot] at hc; exact Bool.false_ne_true hc), if_pos hs]
    refine ⟨?_, ?_, ?_⟩
    · apply cell_ext
      · rw [do_cell_alive,
          if_neg (fun hc => by have h := hc.2; rw [hknot] at h; exact Bool.false_ne_true h),
          if_pos ⟨rfl, hs⟩]
      · show _ = (outboard (i, j)).count
        rw [do_cell_count, hh0, mul_zero, add_zero]
    · intro q hq
      have hqne : q ≠ (i, j) := fun hc => hself (hc ▸ hq)
      apply cell_ext
      · show _ = (outboard q).alive
        rw [do_cell_alive, if_neg (fun hc => hqne hc.1), if_neg (fun hc => hqne hc.1)]
      · show _ = (outboard q).count + 1
        rw [do_cell_count, hdelta, nbrList_eq_W hij, hits_nodup _ hnod q, if_pos hq]
        ring
    · intro q hq1 hq2
      apply cell_ext
      · rw [do_cell_alive, if_neg (fun hc => hq1 hc.1), if_neg (fun hc => hq1 hc.1)]
      · rw [do_cell_count, nbrList_eq_W hij, (hits_eq_zero_iff _ _).mpr hq2, mul_zero,
          add_zero]
  · intro hk hs
    funext q
    rw [do_cell_eq, if_neg (fun hc => by rw [hk] at hc; exact Bool.false_ne_true hc),
      if_neg (fun hc => by rw [hs] at hc; exact Bool.false_ne_true hc)]

theorem do_cell_cases_witness :
    ((3 : Int) ≤ 4 ∧ inRange (4 : Int) (1, 1)) ∧
    (((deadE (1, 1)).alive = true → (deadE (1, 1)).count ≠ 2 → (deadE (1, 1)).count ≠ 3 →
      (do_cell deadE deadE 1 1 4 (1, 1) =
          { alive := false, count := (deadE (1, 1)).count } ∧
        (∀ q ∈ nbrListW 4 (1, 1),
          do_cell deadE deadE 1 1 4 q =
            { alive := (deadE q).alive, count := (deadE q).count - 1 }) ∧
        (∀ q, q ≠ (1, 1) → q ∉ nbrListW 4 (1, 1) →
          do_cell deadE deadE 1 1 4 q = deadE q))) ∧
    ((deadE (1, 1)).alive = false → (deadE (1, 1)).count = 3 →
      (do_cell deadE deadE 1 1 4 (1, 1) =
          { alive := true, count := (deadE (1, 1)).count } ∧
        (∀ q ∈ nbrListW 4 (1, 1),
          do_cell deadE deadE 1 1 4 q =
            { alive := (deadE q).alive, count := (deadE q).count + 1 }) ∧
        (∀ q, q ≠ (1, 1) → q ∉ nbrListW 4 (1, 1) →
          do_cell deadE deadE 1 1 4 q = deadE q))) ∧
    (activeKill (deadE (1, 1)) = false → activeSpawn (deadE (1, 1)) = false →
      do_cell deadE deadE 1 1 4 = deadE)) :=
  ⟨⟨by decide, by decide⟩, do_cell_cases deadE deadE 1 1 4 (by decide) (by decide)⟩

/-- C7: the frame property of `do_cell`: the current buffer is passed as a
read-only argument and is never written (immediate in this functional
embedding), and any cell of the next buffer other than `(i, j)` itself and the
eight (wrapped) neighbor positions the source writes through `N_DEC`/`N_INC`
is returned unchanged. -/
theorem do_cell_frame (outboard inboard : EBoard) (i j n : Int) (q : Pos)
    (hq1 : q ≠ (i, j)) (hq2 : q ∉ nbrList n (i, j)) :
    do_cell outboard inboard i j n q = outboard q := by
  apply cell_ext
  · rw [do_cell_alive, if_neg (fun hc => hq1 hc.1), if_neg (fun hc => hq1 hc.1)]
  · rw [do_cell_count, (hits_eq_zero_iff _ _).mpr hq2, mul_zero, add_zero]

theorem do_cell_frame_witness :
    ((((2 : Int), (2 : Int)) : Pos) ≠ (0, 0) ∧
      ((((2 : Int), (2 : Int)) : Pos) ∉ nbrList 4 (0, 0)) ∧
    do_cell deadE deadE 0 0 4 (2, 2) = deadE (2, 2)) :=
  ⟨by decide, by decide, do_cell_frame deadE deadE 0 0 4 (2, 2) (by decide) (by decide)⟩
